import Mathlib

/-!
# Behavior tree runtime types (BehaviorTreeTypes.h) and the Log test task

A shallow embedding of the value types of
Engine/Source/Runtime/AIModule/Classes/BehaviorTree/BehaviorTreeTypes.h, of
Engine/Source/Developer/AITestSuite/Private/BehaviorTree/TestBTTask_Log.cpp and
of the render command macros of
Engine/Source/Runtime/RenderCore/Public/RenderingThread.h.

Conventions:
* object pointers (UBehaviorTree*, UBTNode*, ...) are natural-number handles,
  0 being the null pointer; only pointer identity is ever used;
* uint16 / uint8 fields are natural numbers, int32 values are integers; where
  the code casts, shifts or increments them the wrap-around is written out
  (ToUInt32, ToInt32, ToUInt16, ToUInt8, WrapInt32); the uint8 index
  InstanceIdIndex is a natural number below 256;
* preprocessor switches (STATS, UE_SERVER) and globals read by the code are
  boolean arguments;
* TArray<T> is List T, TArray::operator== is list equality;
* float is IEEE 754 binary32: a finite value is an integer number of units of
  2^-149, and an operation rounds its exact result to nearest, ties to even.
-/

namespace BehaviorTree

/-! ## Enumerations -/

/-- EBTNodeResult::Type. -/
inductive EBTNodeResult where
  | Succeeded
  | Failed
  | Aborted
  | InProgress
  deriving DecidableEq, Repr

/-- EBTMemoryInit::Type. -/
inductive EBTMemoryInit where
  | Initialize
  | RestoreSubtree
  deriving DecidableEq, Repr

/-- EBTMemoryClear::Type. -/
inductive EBTMemoryClear where
  | Destroy
  | StoreSubtree
  deriving DecidableEq, Repr

/-- EBTNodeUpdateMode::Type. -/
inductive EBTNodeUpdateMode where
  | Add
  | AddForLowerPri
  | Remove
  deriving DecidableEq, Repr

/-- EBTActiveNode::Type. -/
inductive EBTActiveNode where
  | Composite
  | ActiveTask
  | AbortingTask
  | InactiveTask
  deriving DecidableEq, Repr

/-- EBTTaskStatus::Type. -/
inductive EBTTaskStatus where
  | Active
  | Aborting
  | Inactive
  deriving DecidableEq, Repr

/-! ## FBTNodeIndex -/

/-- FBTNodeIndex: index of the instance on the stack and execution index
within that instance (both uint16 in the source). -/
structure FBTNodeIndex where
  InstanceIndex : Nat
  ExecutionIndex : Nat
  deriving DecidableEq, Repr

namespace FBTNodeIndex

/-- FBTNodeIndex::operator==, as written in the header: both fields agree. -/
def eq (self Other : FBTNodeIndex) : Bool :=
  decide (Other.ExecutionIndex = self.ExecutionIndex) &&
    decide (Other.InstanceIndex = self.InstanceIndex)

/-- Modelled from the spec: the body of FBTNodeIndex::TakesPriorityOver is
missing (the header only declares it). Spec, Node Index: "lower
instance_index wins first (outer subtrees outrank inner ones); for equal
instance_index, lower execution_index wins". -/
def TakesPriorityOver (self Other : FBTNodeIndex) : Bool :=
  if self.InstanceIndex ≠ Other.InstanceIndex then
    decide (self.InstanceIndex < Other.InstanceIndex)
  else
    decide (self.ExecutionIndex < Other.ExecutionIndex)

end FBTNodeIndex

/-! ## FBehaviorTreeInstanceId -/

/-- FBehaviorTreeInstanceId: identifier of a subtree instance. TreeAsset and
RootNode are pointers, Path is the execution index path from root,
InstanceMemory the persistent instance memory, FirstNodeInstance an int32. -/
structure FBehaviorTreeInstanceId where
  TreeAsset : Nat
  RootNode : Nat
  Path : List Nat
  InstanceMemory : List Nat
  FirstNodeInstance : Int
  deriving DecidableEq, Repr

namespace FBehaviorTreeInstanceId

/-- FBehaviorTreeInstanceId::operator==, as written in the header:
(TreeAsset == Other.TreeAsset) && (Path == Other.Path). -/
def eq (self Other : FBehaviorTreeInstanceId) : Bool :=
  decide (self.TreeAsset = Other.TreeAsset) && decide (self.Path = Other.Path)

end FBehaviorTreeInstanceId

/-! ## FBehaviorTreeInstance -/

/-- FBehaviorTreeParallelTask: a parallel task node (pointer) and its status. -/
structure FBehaviorTreeParallelTask where
  TaskNode : Nat
  Status : EBTTaskStatus
  deriving DecidableEq, Repr

/-- FBehaviorTreeInstance: data required for the instance of a single subtree.
RootNode and ActiveNode are pointers, InstanceIdIndex (uint8, a value below
256) indexes BehaviorTreeComponent.KnownInstances. -/
structure FBehaviorTreeInstance where
  RootNode : Nat
  ActiveNode : Nat
  ActiveAuxNodes : List Nat
  ParallelTasks : List FBehaviorTreeParallelTask
  InstanceMemory : List Nat
  InstanceIdIndex : Fin 256
  ActiveNodeType : EBTActiveNode
  deriving DecidableEq, Repr

/-! ## Instance stack manager -/

/-- Modelled from the spec: the node classes are missing. Spec, node contract:
each node declares GetInstanceMemorySize() and exposes an initialize-memory
and a cleanup-memory callback, which work on the block of instance memory that
belongs to the node. FirstTimeInitialization is what the node writes into its
block when its memory is initialized for the first time, CleanupMemory what it
leaves in the block on cleanup, given the mode. -/
structure BTNodeTemplate where
  ExecutionIndex : Nat
  InstanceMemorySize : Nat
  FirstTimeInitialization : List Nat → List Nat
  CleanupMemory : EBTMemoryClear → List Nat → List Nat

/-- Modelled from the spec: the initialize-memory callback of a node, by mode.
Header, EBTMemoryInit: "Initialize, // first time initialization" and
"RestoreSubtree, // loading saved data on reentering subtree"; spec, testable
properties: the restored instance memory is "byte-identical to the state at
the moment of storage". On first-time initialization the node writes its
initial state; on restore its block holds the saved data, which the node
keeps. -/
def BTNodeTemplate.InitializeMemory (n : BTNodeTemplate) (InitType : EBTMemoryInit)
    (block : List Nat) : List Nat :=
  match InitType with
  | EBTMemoryInit.Initialize => n.FirstTimeInitialization block
  | EBTMemoryInit.RestoreSubtree => block

/-- Modelled from the spec: the tree asset is missing. Spec, Node Template and
Subtree Instance: an immutable template shared by all instances, identified
by its asset, with a root node and the nodes whose declared memory
requirements make up the instance memory. -/
structure BTTreeTemplate where
  TreeAsset : Nat
  RootNode : Nat
  Nodes : List BTNodeTemplate

/-- Modelled from the spec: the size of the instance buffer of a tree. Spec,
Subtree Instance: the buffer is "sized to the sum of declared memory
requirements of nodes". -/
def BTTreeTemplate.InstanceMemorySize (tree : BTTreeTemplate) : Nat :=
  (tree.Nodes.map (fun n => n.InstanceMemorySize)).sum

/-- Modelled from the spec: a node callback works on a block of the declared
size and cannot resize it; what it leaves is cut or zero-padded to the
declared block size. -/
def FitBlock (size : Nat) (block : List Nat) : List Nat :=
  (block ++ List.replicate size 0).take size

/-- Modelled from the spec: "invokes each node's ... callback along the path".
Runs callback f of every node, in node order, on the block of the buffer that
belongs to the node (blocks are laid out one after the other). -/
def ForEachNodeMemory (f : BTNodeTemplate → List Nat → List Nat) :
    List BTNodeTemplate → List Nat → List Nat
  | [], mem => mem
  | n :: ns, mem =>
    FitBlock n.InstanceMemorySize (f n (mem.take n.InstanceMemorySize)) ++
      ForEachNodeMemory f ns (mem.drop n.InstanceMemorySize)

/-- Modelled from the spec: a subtree instance on the stack together with the
template it refers to (spec, Subtree Instance: "reference to its root template
node"). -/
structure BTStackEntry where
  Instance : FBehaviorTreeInstance
  Template : BTTreeTemplate

/-- Modelled from the spec: UBehaviorTreeComponent is missing. Spec, Instance
Stack Manager: it owns the ordered stack of subtree instances (the last entry
is the top) and the known-instance-identifier table. -/
structure UBehaviorTreeComponent where
  InstanceStack : List BTStackEntry
  KnownInstances : List FBehaviorTreeInstanceId

/-- Modelled from the spec: lookup in the known-instance-identifier table, the
index of the first known identifier equal (operator==) to id. -/
def IndexOfInstanceId (id : FBehaviorTreeInstanceId) : List FBehaviorTreeInstanceId → Option Nat
  | [] => none
  | x :: xs => if x.eq id then some 0 else (IndexOfInstanceId id xs).map (fun i => i + 1)

/-- Modelled from the spec: the known-instance-identifier table "deduplicates
identifiers by (asset, path)": an identifier already known is reused, an
unknown one is added at the end. Returns the table and the index of id. -/
def UpdateInstanceId (known : List FBehaviorTreeInstanceId) (id : FBehaviorTreeInstanceId) :
    List FBehaviorTreeInstanceId × Nat :=
  match IndexOfInstanceId id known with
  | some idx => (known, idx)
  | none => (known ++ [id], known.length)

/-- Modelled from the spec: the instance memory persisted in identifier idx of
the table (empty when there is no such identifier). -/
def PersistedMemory (known : List FBehaviorTreeInstanceId) (idx : Nat) : List Nat :=
  match known[idx]? with
  | some id => id.InstanceMemory
  | none => []

/-- Modelled from the spec: "persists instance memory into the identifier";
replaces the instance memory persisted in identifier idx. -/
def SetPersistedMemory :
    List FBehaviorTreeInstanceId → Nat → List Nat → List FBehaviorTreeInstanceId
  | [], _, _ => []
  | x :: xs, 0, mem => { x with InstanceMemory := mem } :: xs
  | x :: xs, i + 1, mem => x :: SetPersistedMemory xs i mem

/-- The conversion of an index to uint8 (the assignment to the uint8 field
InstanceIdIndex of the header). -/
def ToUInt8 (Word : Nat) : Nat :=
  Word % 256

namespace UBehaviorTreeComponent

/-- Modelled from the spec: PushInstance is missing. Spec, Instance Stack
Manager: "allocates a new Subtree Instance; if a persisted identifier matches
(same asset + same path from root), restores saved instance memory
(RestoreSubtree mode) instead of zero-initializing (Initialize mode); invokes
each node's initialize-memory callback along the path. Returns the new stack
depth." Memory is restored when the caller asks for RestoreSubtree, the
identifier was known before the call and its persisted memory has the size of
the instance buffer. The index of the identifier is stored in the uint8 field
InstanceIdIndex, converted with ToUInt8. -/
def PushInstance (comp : UBehaviorTreeComponent) (tree : BTTreeTemplate) (path : List Nat)
    (reenterMode : EBTMemoryInit) : UBehaviorTreeComponent × Nat :=
  let id : FBehaviorTreeInstanceId :=
    { TreeAsset := tree.TreeAsset, RootNode := tree.RootNode, Path := path,
      InstanceMemory := [], FirstNodeInstance := -1 }
  let r := UpdateInstanceId comp.KnownInstances id
  let saved := PersistedMemory r.1 r.2
  let bRestore : Bool :=
    decide (reenterMode = EBTMemoryInit.RestoreSubtree) &&
      (IndexOfInstanceId id comp.KnownInstances).isSome &&
      decide (saved.length = tree.InstanceMemorySize)
  let initType := if bRestore then EBTMemoryInit.RestoreSubtree else EBTMemoryInit.Initialize
  let mem0 := if bRestore then saved else List.replicate tree.InstanceMemorySize 0
  let mem := ForEachNodeMemory (fun n => n.InitializeMemory initType) tree.Nodes mem0
  let inst : FBehaviorTreeInstance :=
    { RootNode := tree.RootNode, ActiveNode := 0, ActiveAuxNodes := [], ParallelTasks := [],
      InstanceMemory := mem, InstanceIdIndex := ⟨ToUInt8 r.2, Nat.mod_lt r.2 (by decide)⟩,
      ActiveNodeType := EBTActiveNode.Composite }
  ({ InstanceStack := comp.InstanceStack ++ [{ Instance := inst, Template := tree }],
     KnownInstances := r.1 },
   comp.InstanceStack.length + 1)

/-- Modelled from the spec: PopInstance is missing. Spec, Instance Stack
Manager: "invokes cleanup callbacks along the path (Destroy finalizes
permanently; StoreSubtree persists instance memory into the identifier for
possible later restore), then removes the top instance. Errors if the stack is
empty". -/
def PopInstance (comp : UBehaviorTreeComponent) (mode : EBTMemoryClear) :
    Option UBehaviorTreeComponent :=
  match comp.InstanceStack.getLast? with
  | none => none
  | some top =>
    let mem := ForEachNodeMemory (fun n => n.CleanupMemory mode) top.Template.Nodes
      top.Instance.InstanceMemory
    let known :=
      match mode with
      | EBTMemoryClear.StoreSubtree =>
        SetPersistedMemory comp.KnownInstances top.Instance.InstanceIdIndex.val mem
      | EBTMemoryClear.Destroy =>
        SetPersistedMemory comp.KnownInstances top.Instance.InstanceIdIndex.val []
    some { InstanceStack := comp.InstanceStack.dropLast, KnownInstances := known }

/-- Modelled from the spec: node execution is missing. Spec, glossary: the
instance memory holds "runtime state for nodes along the active path"; what
the nodes of the active (top) instance wrote while executing is mem, which
becomes the instance memory of the top instance. -/
def WriteActiveInstanceMemory (comp : UBehaviorTreeComponent) (mem : List Nat) :
    UBehaviorTreeComponent :=
  match comp.InstanceStack.getLast? with
  | none => comp
  | some top =>
    { comp with
      InstanceStack := comp.InstanceStack.dropLast ++
        [{ top with Instance := { top.Instance with InstanceMemory := mem } }] }

/-- Modelled from the spec: the restore round trip of the testable properties.
Push the subtree, let its nodes leave `written` in
the instance memory, pop it with StoreSubtree, push the same (asset, path)
again with RestoreSubtree. Returns the buffer persisted by the pop and the
instance memory of the re-pushed instance. -/
def RestoreRoundTrip (comp : UBehaviorTreeComponent) (tree : BTTreeTemplate) (path : List Nat)
    (firstMode : EBTMemoryInit) (written : List Nat) : Option (List Nat × List Nat) :=
  let c1 := (comp.PushInstance tree path firstMode).1
  let c2 := c1.WriteActiveInstanceMemory written
  match c2.InstanceStack.getLast?, c2.PopInstance EBTMemoryClear.StoreSubtree with
  | some popped, some c3 =>
    let stored := PersistedMemory c3.KnownInstances popped.Instance.InstanceIdIndex.val
    let c4 := (c3.PushInstance tree path EBTMemoryInit.RestoreSubtree).1
    match c4.InstanceStack.getLast? with
    | some top => some (stored, top.Instance.InstanceMemory)
    | none => none
  | _, _ => none

end UBehaviorTreeComponent

/-- A node with one byte of memory that sets its byte to 5 on first-time
initialization and leaves it as it is on cleanup. -/
def KeepingNode : BTNodeTemplate :=
  { ExecutionIndex := 0, InstanceMemorySize := 1,
    FirstTimeInitialization := fun _ => [5],
    CleanupMemory := fun _ block => block }

/-- A tree (asset 2, root node 2) made of the keeping node alone. -/
def KeepingTree : BTTreeTemplate :=
  { TreeAsset := 2, RootNode := 2, Nodes := [KeepingNode] }

/-! ## FBehaviorTreeSearchUpdate and FBehaviorTreeSearchData -/

/-- FBehaviorTreeSearchUpdate: node update data. AuxNode and TaskNode are
pointers (0 is null), InstanceIndex a uint16, bPostUpdate a one-bit flag. -/
structure FBehaviorTreeSearchUpdate where
  AuxNode : Nat
  TaskNode : Nat
  InstanceIndex : Nat
  Mode : EBTNodeUpdateMode
  bPostUpdate : Bool
  deriving DecidableEq, Repr

namespace FBehaviorTreeSearchUpdate

/-- Two updates concern the same node when they carry the same AuxNode and the
same TaskNode pointer. -/
def SameNode (a b : FBehaviorTreeSearchUpdate) : Bool :=
  decide (a.AuxNode = b.AuxNode) && decide (a.TaskNode = b.TaskNode)

end FBehaviorTreeSearchUpdate

/-- FBehaviorTreeSearchData: node search data. OwnerComp is a reference to the
owning component (a handle here), SearchId an int32. -/
structure FBehaviorTreeSearchData where
  OwnerComp : Nat
  PendingUpdates : List FBehaviorTreeSearchUpdate
  SearchStart : FBTNodeIndex
  SearchEnd : FBTNodeIndex
  SearchId : Int
  deriving DecidableEq, Repr

namespace FBehaviorTreeSearchData

/-- Modelled from the spec: the body of FBehaviorTreeSearchData::AddUniqueUpdate
is missing (the header only declares it, with the comment "adds update info to
PendingUpdates array, removing all previous updates for this node"). Spec,
Search Context: "AddUniqueUpdate coalesces updates for the same node - a later
update for a node already queued replaces rather than appends". Every queued
update for the node of UpdateInfo is removed, then UpdateInfo is added. -/
def AddUniqueUpdate (self : FBehaviorTreeSearchData) (UpdateInfo : FBehaviorTreeSearchUpdate) :
    FBehaviorTreeSearchData :=
  { self with
    PendingUpdates :=
      self.PendingUpdates.filter (fun Info => !(Info.SameNode UpdateInfo)) ++ [UpdateInfo] }

/-- The entries of PendingUpdates that concern the node of update u. -/
def EntriesFor (self : FBehaviorTreeSearchData) (u : FBehaviorTreeSearchUpdate) :
    List FBehaviorTreeSearchUpdate :=
  self.PendingUpdates.filter (fun Info => Info.SameNode u)

end FBehaviorTreeSearchData

/-! ## The type float (IEEE 754 binary32) -/

/-- The C++ type float, IEEE 754 binary32. Every finite binary32 value is a
multiple of 2^-149, the smallest subnormal: Finite Negative Magnitude is the
value (-1)^Negative * Magnitude * 2^-149, a zero keeping its sign. The
magnitudes of the finite floats are the numbers below 2^24 and the numbers
m * 2^s with 2^23 <= m < 2^24 and s <= 253 (float.Representable); 1.0f is
Finite false (2^149). All NaNs are one value. -/
inductive float where
  | Finite (Negative : Bool) (Magnitude : Nat)
  | Infinity (Negative : Bool)
  | NaN
  deriving DecidableEq, Repr

namespace float

/-- The literal 0.0f. -/
def Zero : float :=
  Finite false 0

/-- The number of low bits of a magnitude that a 24-bit significand does not
hold: the least s with Magnitude / 2^s < 2^24. The first argument bounds the
search; the magnitude itself always suffices. -/
def ExcessBits : Nat → Nat → Nat
  | 0, _ => 0
  | fuel + 1, Magnitude =>
    if Magnitude < 16777216 then 0 else ExcessBits fuel (Magnitude / 2) + 1

/-- Rounding of an exact magnitude to 24 significant bits, to nearest, a tie
going to the even significand (the rounding mode C++ programs run in). The
result may reach 2^128 (2^277 units), which is an overflow. -/
def RoundMagnitude (Magnitude : Nat) : Nat :=
  let s := ExcessBits Magnitude Magnitude
  let q := Magnitude / 2 ^ s
  let r := Magnitude % 2 ^ s
  if 2 ^ s < 2 * r ∨ (2 * r = 2 ^ s ∧ q % 2 = 1) then (q + 1) * 2 ^ s else q * 2 ^ s

/-- The magnitude is that of a finite float: rounding leaves it as it is and
it is below 2^128. -/
def Representable (Magnitude : Nat) : Bool :=
  decide (RoundMagnitude Magnitude = Magnitude) && decide (Magnitude < 2 ^ 128 * 2 ^ 149)

/-- The float an arithmetic operation returns for the exact result Value (in
units of 2^-149): Value rounded, an infinity when the rounded magnitude
reaches 2^128. An exact zero gets the sign bNegativeZero. -/
def OfExact (Value : Int) (bNegativeZero : Bool) : float :=
  if Value = 0 then Finite bNegativeZero 0
  else if RoundMagnitude Value.natAbs < 2 ^ 128 * 2 ^ 149 then
    Finite (decide (Value < 0)) (RoundMagnitude Value.natAbs)
  else Infinity (decide (Value < 0))

/-- The exact value of a finite float, in units of 2^-149. -/
def Exact (Negative : Bool) (Magnitude : Nat) : Int :=
  if Negative then -(Magnitude : Int) else (Magnitude : Int)

/-- The operator - on float (also the -= of TickTask): NaN when an operand is
NaN or both are the same infinity, an infinity when one operand is one, and
otherwise the exact difference rounded; an exact zero difference is -0 only
for (-0) - (+0). -/
def Sub : float → float → float
  | NaN, _ => NaN
  | _, NaN => NaN
  | Infinity a, Infinity b => if a = b then NaN else Infinity a
  | Infinity a, Finite _ _ => Infinity a
  | Finite _ _, Infinity b => Infinity (!b)
  | Finite sx mx, Finite sy my => OfExact (Exact sx mx - Exact sy my) (sx && !sy)

/-- The operator <= on float: false when an operand is NaN, otherwise the
order of the values (the two zeros are equal). -/
def LessEq : float → float → Bool
  | NaN, _ => false
  | _, NaN => false
  | Infinity a, Infinity b => a || !b
  | Infinity a, Finite _ _ => a
  | Finite _ _, Infinity b => !b
  | Finite sx mx, Finite sy my => decide (Exact sx mx ≤ Exact sy my)

end float

/-! ## UTestBTTask_Log (TestBTTask_Log.cpp) -/

/-- UTestBTTask_Log configuration: ExecutionTime (float), LogIndex (int32) and
LogResult. -/
structure UTestBTTask_Log where
  ExecutionTime : float
  LogIndex : Int
  LogResult : EBTNodeResult

/-- FBTLogTaskMemory: the node memory of the Log task. -/
structure FBTLogTaskMemory where
  RemainingWaitTime : float

/-- What the Log task can observe and change outside its node memory:
UMockAI_BT::ExecutionLog, and the results passed to FinishLatentTask so far
(in call order). -/
structure LogTaskWorld where
  ExecutionLog : List Int
  FinishedLatent : List EBTNodeResult

namespace UTestBTTask_Log

/-- UTestBTTask_Log::LogExecution: UMockAI_BT::ExecutionLog.Add(LogIndex). -/
def LogExecution (self : UTestBTTask_Log) (w : LogTaskWorld) : LogTaskWorld :=
  { w with ExecutionLog := w.ExecutionLog ++ [self.LogIndex] }

/-- UBTTaskNode::FinishLatentTask, seen as an event: the result is recorded. -/
def FinishLatentTask (w : LogTaskWorld) (TaskResult : EBTNodeResult) : LogTaskWorld :=
  { w with FinishedLatent := w.FinishedLatent ++ [TaskResult] }

/-- UTestBTTask_Log::ExecuteTask. The node memory passed in is overwritten. -/
def ExecuteTask (self : UTestBTTask_Log) (_NodeMemory : FBTLogTaskMemory) (w : LogTaskWorld) :
    EBTNodeResult × FBTLogTaskMemory × LogTaskWorld :=
  let MyMemory : FBTLogTaskMemory := { RemainingWaitTime := self.ExecutionTime }
  if float.LessEq self.ExecutionTime float.Zero then
    (self.LogResult, MyMemory, self.LogExecution w)
  else
    (EBTNodeResult.InProgress, MyMemory, w)

/-- UTestBTTask_Log::TickTask. -/
def TickTask (self : UTestBTTask_Log) (NodeMemory : FBTLogTaskMemory) (w : LogTaskWorld)
    (DeltaSeconds : float) : FBTLogTaskMemory × LogTaskWorld :=
  let MyMemory : FBTLogTaskMemory :=
    { RemainingWaitTime := float.Sub NodeMemory.RemainingWaitTime DeltaSeconds }
  if float.LessEq MyMemory.RemainingWaitTime float.Zero then
    (MyMemory, FinishLatentTask (self.LogExecution w) self.LogResult)
  else
    (MyMemory, w)

/-- The state after k ticks with a constant DeltaSeconds, starting from the
node memory and world state given. -/
def TickTimes (self : UTestBTTask_Log) (DeltaSeconds : float) :
    Nat → FBTLogTaskMemory × LogTaskWorld → FBTLogTaskMemory × LogTaskWorld
  | 0, s => s
  | k + 1, s =>
    let s1 := TickTimes self DeltaSeconds k s
    self.TickTask s1.1 s1.2 DeltaSeconds

/-- The state after ExecuteTask followed by k ticks with a constant
DeltaSeconds. -/
def RunTicks (self : UTestBTTask_Log) (NodeMemory : FBTLogTaskMemory) (w : LogTaskWorld)
    (DeltaSeconds : float) (k : Nat) : FBTLogTaskMemory × LogTaskWorld :=
  let r := self.ExecuteTask NodeMemory w
  self.TickTimes DeltaSeconds k r.2

end UTestBTTask_Log

/-! ## Machine integers -/

/-- The int32 value with the same low 32 bits as v (two's complement
wrap-around). -/
def WrapInt32 (v : Int) : Int :=
  (v + 2147483648) % 4294967296 - 2147483648

/-- The cast (uint32)Value of an int32 Value: its 32-bit pattern. -/
def ToUInt32 (Value : Int) : Nat :=
  (Value % 4294967296).toNat

/-- The cast (int32)Word of a uint32 Word. -/
def ToInt32 (Word : Nat) : Int :=
  WrapInt32 (Word : Int)

/-- The conversion of an unsigned value to uint16 (member initialisation of a
uint16 from a uint32). -/
def ToUInt16 (Word : Nat) : Nat :=
  Word % 65536

/-! ## Pending updates: order of application and search ids -/

namespace FBehaviorTreeSearchUpdate

/-- An update that is not flagged bPostUpdate and removes its node. -/
def IsRegularRemove (u : FBehaviorTreeSearchUpdate) : Bool :=
  !u.bPostUpdate && decide (u.Mode = EBTNodeUpdateMode.Remove)

/-- An update that is not flagged bPostUpdate and adds its node (mode Add or
AddForLowerPri). -/
def IsRegularAdd (u : FBehaviorTreeSearchUpdate) : Bool :=
  !u.bPostUpdate && !decide (u.Mode = EBTNodeUpdateMode.Remove)

end FBehaviorTreeSearchUpdate

/-- Modelled from the spec: the code that applies the pending updates of a
search is missing (the header only carries the flag, "if set, this entry will
be applied AFTER other are processed"). Spec, Execution Driver step 3:
"execute queued Remove updates before Add updates ... except branches
explicitly deferred via the bPostUpdate flag, which apply after all
non-deferred updates". The result lists the updates in the order in which
they are applied; within each group the queue order is kept. -/
def ApplyPendingUpdates (PendingUpdates : List FBehaviorTreeSearchUpdate) :
    List FBehaviorTreeSearchUpdate :=
  PendingUpdates.filter (fun u => u.IsRegularRemove) ++
    (PendingUpdates.filter (fun u => u.IsRegularAdd) ++
      PendingUpdates.filter (fun u => u.bPostUpdate))

namespace FBehaviorTreeSearchData

/-- Modelled from the spec: the body of FBehaviorTreeSearchData::AssignSearchId
is missing (the header declares it, "assign unique Id number", next to
"static int32 NextSearchId"). Spec, Search Context and Search Engine step 1:
"a monotonically increasing search id (global counter ...)", "Assign a new
search id (monotonic counter ...)". The search data takes the current value
of the counter and the counter is incremented. The counter is an int32:
incrementing the largest int32 is a signed overflow, for which C++ defines no
result, and the call then has none. Returns the search data and the new value
of NextSearchId. -/
def AssignSearchId (self : FBehaviorTreeSearchData) (NextSearchId : Int) :
    Option (FBehaviorTreeSearchData × Int) :=
  if NextSearchId + 1 ≤ 2147483647 then
    some ({ self with SearchId := NextSearchId }, NextSearchId + 1)
  else none

/-- AssignSearchId called on each search data of the list in turn, the global
counter NextSearchId being threaded through the calls. Returns the search
data after their call, in call order, and the final value of the counter; no
result when one of the calls has none. -/
def AssignSearchIds (NextSearchId : Int) :
    List FBehaviorTreeSearchData → Option (List FBehaviorTreeSearchData × Int)
  | [] => some ([], NextSearchId)
  | sd :: rest =>
    match sd.AssignSearchId NextSearchId with
    | none => none
    | some r =>
      match AssignSearchIds r.2 rest with
      | none => none
      | some rs => some (r.1 :: rs.1, rs.2)

end FBehaviorTreeSearchData

/-! ## FBehaviorTreeInstance: construction and memory statistics -/

/-- Modelled from the spec: TArray::AddZeroed is missing. Spec, PushInstance:
"zero-initializing (Initialize mode)"; Count zeroed elements are added at the
end of the array. -/
def TArrayAddZeroed (Elements : List Nat) (Count : Int) : List Nat :=
  Elements ++ List.replicate Count.toNat 0

/-- What the platform and the array allocator report for one subtree instance:
sizeof(*this) and the GetAllocatedSize() of the three arrays (each a uint32).
TArray keeps a capacity that the list embedding does not show, so these
figures are inputs. -/
structure FInstanceAllocation where
  SizeOfThis : Nat
  ActiveAuxNodesAllocated : Nat
  ParallelTasksAllocated : Nat
  InstanceMemoryAllocated : Nat
  deriving DecidableEq, Repr

/-- Modelled from the spec: the stat macro INC_MEMORY_STAT_BY is missing. Spec,
Instance Stack Manager: "every push/pop updates memory-usage telemetry"; the
amount is added to the memory stat. -/
def INC_MEMORY_STAT_BY (Stat : Int) (Amount : Nat) : Int :=
  Stat + (Amount : Int)

/-- Modelled from the spec: the stat macro DEC_MEMORY_STAT_BY is missing; the
amount is subtracted from the memory stat. -/
def DEC_MEMORY_STAT_BY (Stat : Int) (Amount : Nat) : Int :=
  Stat - (Amount : Int)

namespace FBehaviorTreeInstance

/-- FBehaviorTreeInstance::GetAllocatedSize. With STATS the sum of sizeof(*this)
and the three allocated sizes, returned as a uint32; without STATS the
constant 0. -/
def GetAllocatedSize (STATS : Bool) (a : FInstanceAllocation) : Nat :=
  if STATS then
    (a.SizeOfThis + a.ActiveAuxNodesAllocated + a.ParallelTasksAllocated +
      a.InstanceMemoryAllocated) % 4294967296
  else 0

/-- FBehaviorTreeInstance::IncMemoryStats. With STATS,
INC_MEMORY_STAT_BY(STAT_AI_BehaviorTree_InstanceMemory, GetAllocatedSize());
without STATS the body is empty. The argument Stat is the value of
STAT_AI_BehaviorTree_InstanceMemory. -/
def IncMemoryStats (STATS : Bool) (a : FInstanceAllocation) (Stat : Int) : Int :=
  if STATS then INC_MEMORY_STAT_BY Stat (GetAllocatedSize STATS a) else Stat

/-- FBehaviorTreeInstance::DecMemoryStats. With STATS,
DEC_MEMORY_STAT_BY(STAT_AI_BehaviorTree_InstanceMemory, GetAllocatedSize());
without STATS the body is empty. -/
def DecMemoryStats (STATS : Bool) (a : FInstanceAllocation) (Stat : Int) : Int :=
  if STATS then DEC_MEMORY_STAT_BY Stat (GetAllocatedSize STATS a) else Stat

/-- FBehaviorTreeInstance::FBehaviorTreeInstance(int32 MemorySize):
InstanceMemory.AddZeroed(MemorySize) on the default-constructed (empty) array.
The two other arrays are default-constructed; the members the constructor does
not initialise (RootNode, ActiveNode, InstanceIdIndex, ActiveNodeType) are
taken from Uninitialized. -/
def ofMemorySize (MemorySize : Int) (Uninitialized : FBehaviorTreeInstance) :
    FBehaviorTreeInstance :=
  { RootNode := Uninitialized.RootNode, ActiveNode := Uninitialized.ActiveNode,
    ActiveAuxNodes := [], ParallelTasks := [],
    InstanceMemory := TArrayAddZeroed [] MemorySize,
    InstanceIdIndex := Uninitialized.InstanceIdIndex,
    ActiveNodeType := Uninitialized.ActiveNodeType }

end FBehaviorTreeInstance

/-! ## FBehaviorTreePropertyMemory -/

/-- FBehaviorTreePropertyMemory: property block in blueprint defined nodes;
Offset and BlockSize are uint16. -/
structure FBehaviorTreePropertyMemory where
  Offset : Nat
  BlockSize : Nat
  deriving DecidableEq, Repr

namespace FBehaviorTreePropertyMemory

/-- FBehaviorTreePropertyMemory(int32 Value):
Offset((uint32)Value >> 16), BlockSize((uint32)Value & 0xFFFF). -/
def ofInt32 (Value : Int) : FBehaviorTreePropertyMemory :=
  { Offset := ToUInt16 (ToUInt32 Value >>> 16),
    BlockSize := ToUInt16 (ToUInt32 Value &&& 0xFFFF) }

/-- FBehaviorTreePropertyMemory::Pack:
(int32)(((uint32)Offset << 16) | BlockSize), the shift being taken in 32 bits. -/
def Pack (self : FBehaviorTreePropertyMemory) : Int :=
  ToInt32 (((self.Offset <<< 16) % 4294967296) ||| self.BlockSize)

end FBehaviorTreePropertyMemory

/-! ## FBlackboard keys and FBlackboardKeySelector -/

/-- The conversion FBlackboard::FKey(v) of an integer to the key type, a
uint8 (typedef uint8 FKey). -/
def FBlackboard.FKey (v : Int) : Nat :=
  (v % 256).toNat

/-- FBlackboard::InvalidKey = FKey(-1). -/
def FBlackboard.InvalidKey : Nat :=
  FBlackboard.FKey (-1)

/-- FBlackboardKeySelector. AllowedTypes holds object pointers, SelectedKeyName
is a name handle (0 is NAME_None), SelectedKeyType a class pointer,
SelectedKeyID a uint8. -/
structure FBlackboardKeySelector where
  AllowedTypes : List Nat
  SelectedKeyName : Nat
  SelectedKeyType : Nat
  SelectedKeyID : Nat
  bNoneIsAllowedValue : Bool
  deriving DecidableEq, Repr

namespace FBlackboardKeySelector

/-- FBlackboardKeySelector::FBlackboardKeySelector():
SelectedKeyID(FBlackboard::InvalidKey); the array, the name and the class are
default-constructed, the bit bNoneIsAllowedValue is not initialised by the
constructor and is an input here. -/
def ctor (bNoneIsAllowedValue : Bool) : FBlackboardKeySelector :=
  { AllowedTypes := [], SelectedKeyName := 0, SelectedKeyType := 0,
    SelectedKeyID := FBlackboard.InvalidKey, bNoneIsAllowedValue := bNoneIsAllowedValue }

/-- FBlackboardKeySelector::GetSelectedKeyID. -/
def GetSelectedKeyID (self : FBlackboardKeySelector) : Nat :=
  self.SelectedKeyID

/-- FBlackboardKeySelector::IsNone. -/
def IsNone (self : FBlackboardKeySelector) : Bool :=
  self.bNoneIsAllowedValue && decide (self.SelectedKeyID = FBlackboard.InvalidKey)

end FBlackboardKeySelector

/-! ## Render commands (RenderingThread.h) -/

/-- A rendering command: the command class EURCMacro_TypeName declared by the
macro (a handle for its Code) and the parameter values it was built with. -/
structure FRenderCommand where
  TypeName : Nat
  ParamValues : List Nat
  deriving DecidableEq, Repr

/-- What issuing a rendering command can change: the tasks created for the
rendering thread (TGraphTask ... ConstructAndDispatchWhenReady, in creation
order) and the commands whose DoTask was run in place by the caller (in call
order). -/
structure FRenderCommandWorld where
  DispatchedTasks : List FRenderCommand
  ExecutedInPlace : List FRenderCommand
  deriving DecidableEq, Repr

/-- The block shared by the five macros:
if (GIsThreadedRendering || !IsInGameThread()) the command is constructed and
dispatched as a task, else a TempCommand is built and its DoTask is called.
CheckNotBlockedOnRenderThread only reports (ensure) and changes nothing. -/
def DispatchOrExecute (GIsThreadedRendering IsInGameThread : Bool) (Command : FRenderCommand)
    (w : FRenderCommandWorld) : FRenderCommandWorld :=
  if GIsThreadedRendering || !IsInGameThread then
    { w with DispatchedTasks := w.DispatchedTasks ++ [Command] }
  else
    { w with ExecutedInPlace := w.ExecutedInPlace ++ [Command] }

/-- ENQUEUE_UNIQUE_RENDER_COMMAND(TypeName, Code). With UE_SERVER the macro
expands to nothing. -/
def ENQUEUE_UNIQUE_RENDER_COMMAND (UE_SERVER GIsThreadedRendering IsInGameThread : Bool)
    (TypeName : Nat) (w : FRenderCommandWorld) : FRenderCommandWorld :=
  if UE_SERVER then w
  else DispatchOrExecute GIsThreadedRendering IsInGameThread ⟨TypeName, []⟩ w

/-- ENQUEUE_UNIQUE_RENDER_COMMAND_ONEPARAMETER(TypeName, ..., ParamValue1, Code). -/
def ENQUEUE_UNIQUE_RENDER_COMMAND_ONEPARAMETER
    (UE_SERVER GIsThreadedRendering IsInGameThread : Bool)
    (TypeName ParamValue1 : Nat) (w : FRenderCommandWorld) : FRenderCommandWorld :=
  if UE_SERVER then w
  else DispatchOrExecute GIsThreadedRendering IsInGameThread ⟨TypeName, [ParamValue1]⟩ w

/-- ENQUEUE_UNIQUE_RENDER_COMMAND_TWOPARAMETER(TypeName, ..., Code). -/
def ENQUEUE_UNIQUE_RENDER_COMMAND_TWOPARAMETER
    (UE_SERVER GIsThreadedRendering IsInGameThread : Bool)
    (TypeName ParamValue1 ParamValue2 : Nat) (w : FRenderCommandWorld) : FRenderCommandWorld :=
  if UE_SERVER then w
  else DispatchOrExecute GIsThreadedRendering IsInGameThread
    ⟨TypeName, [ParamValue1, ParamValue2]⟩ w

/-- ENQUEUE_UNIQUE_RENDER_COMMAND_THREEPARAMETER(TypeName, ..., Code). -/
def ENQUEUE_UNIQUE_RENDER_COMMAND_THREEPARAMETER
    (UE_SERVER GIsThreadedRendering IsInGameThread : Bool)
    (TypeName ParamValue1 ParamValue2 ParamValue3 : Nat) (w : FRenderCommandWorld) :
    FRenderCommandWorld :=
  if UE_SERVER then w
  else DispatchOrExecute GIsThreadedRendering IsInGameThread
    ⟨TypeName, [ParamValue1, ParamValue2, ParamValue3]⟩ w

/-- ENQUEUE_UNIQUE_RENDER_COMMAND_FOURPARAMETER(TypeName, ..., Code). -/
def ENQUEUE_UNIQUE_RENDER_COMMAND_FOURPARAMETER
    (UE_SERVER GIsThreadedRendering IsInGameThread : Bool)
    (TypeName ParamValue1 ParamValue2 ParamValue3 ParamValue4 : Nat) (w : FRenderCommandWorld) :
    FRenderCommandWorld :=
  if UE_SERVER then w
  else DispatchOrExecute GIsThreadedRendering IsInGameThread
    ⟨TypeName, [ParamValue1, ParamValue2, ParamValue3, ParamValue4]⟩ w

/-! ## FBTNodeIndex: hashing -/

/-- GetTypeHash(const FBTNodeIndex&): Other.ExecutionIndex ^ Other.InstanceIndex
(the exclusive or of the two uint16 fields, returned as a uint32). -/
def GetTypeHash (Other : FBTNodeIndex) : Nat :=
  Other.ExecutionIndex ^^^ Other.InstanceIndex

/-! ## FTargetDeviceProxyManager (TargetDeviceProxyManager.cpp) -/

/-- NAME_None, the empty FName. Names (FString, FName) are handles: equal
handles stand for names that compare equal with operator==. -/
def NAME_None : Nat := 0

/-- FTargetDeviceProxy, as far as the manager reads it (the class is declared
elsewhere): bShared is IsShared(), HostUser is GetHostUser(), TargetPlatforms
holds the names for which HasTargetPlatform is true, DeviceIds those for which
HasDeviceId is true, LastUpdateTime is GetLastUpdateTime() in seconds. -/
structure FTargetDeviceProxy where
  Name : Nat
  bShared : Bool
  HostUser : Nat
  TargetPlatforms : List Nat
  DeviceIds : List Nat
  LastUpdateTime : ℚ
  deriving DecidableEq

/-- FTargetDeviceProxyManager: the map Proxies (TMap from name to
TSharedPtr of a proxy, in iteration order; none is the null pointer) and what
the two delegates ProxyAddedDelegate and ProxyRemovedDelegate have broadcast so
far, in call order. -/
structure FTargetDeviceProxyManager where
  Proxies : List (Nat × Option FTargetDeviceProxy)
  ProxyAddedBroadcasts : List FTargetDeviceProxy
  ProxyRemovedBroadcasts : List FTargetDeviceProxy
  deriving DecidableEq

/-- TMap::FindRef: the value stored under Key, or the default value (the null
pointer) when the key is absent. -/
def TMapFindRef : List (Nat × Option FTargetDeviceProxy) → Nat → Option FTargetDeviceProxy
  | [], _ => none
  | (k, v) :: rest, Key => if k = Key then v else TMapFindRef rest Key

/-- Whether the map has an entry for Key. -/
def TMapContains : List (Nat × Option FTargetDeviceProxy) → Nat → Bool
  | [], _ => false
  | (k, _) :: rest, Key => if k = Key then true else TMapContains rest Key

/-- TMap::FindOrAdd: the map in which Key has an entry (a new entry holds the
default value, the null pointer), the caller getting a reference to the value
of that entry. -/
def TMapFindOrAdd (Map : List (Nat × Option FTargetDeviceProxy)) (Key : Nat) :
    List (Nat × Option FTargetDeviceProxy) :=
  if TMapContains Map Key then Map else Map ++ [(Key, none)]

/-- Assignment through the reference returned by FindOrAdd: the value of the
entry of Key becomes Value. -/
def TMapAssign :
    List (Nat × Option FTargetDeviceProxy) → Nat → Option FTargetDeviceProxy →
      List (Nat × Option FTargetDeviceProxy)
  | [], _, _ => []
  | (k, v) :: rest, Key, Value =>
    if k = Key then (k, Value) :: rest else (k, v) :: TMapAssign rest Key Value

namespace FTargetDeviceProxyManager

/-- The proxies held by the map, in iteration order. -/
def ManagedProxies (self : FTargetDeviceProxyManager) : List FTargetDeviceProxy :=
  self.Proxies.filterMap (fun e => e.2)

/-- FTargetDeviceProxyManager::FindProxy: Proxies.FindRef(Name). -/
def FindProxy (self : FTargetDeviceProxyManager) (Name : Nat) : Option FTargetDeviceProxy :=
  TMapFindRef self.Proxies Name

/-- FTargetDeviceProxyManager::FindOrAddProxy. MakeProxy is the constructor
FTargetDeviceProxy(Name), declared elsewhere. Returns the manager after the
call and the proxy returned. -/
def FindOrAddProxy (MakeProxy : Nat → FTargetDeviceProxy) (self : FTargetDeviceProxyManager)
    (Name : Nat) : FTargetDeviceProxyManager × FTargetDeviceProxy :=
  let Map := TMapFindOrAdd self.Proxies Name
  match TMapFindRef Map Name with
  | some Proxy => ({ self with Proxies := Map }, Proxy)
  | none =>
    let Proxy := MakeProxy Name
    ({ Proxies := TMapAssign Map Name (some Proxy),
       ProxyAddedBroadcasts := self.ProxyAddedBroadcasts ++ [Proxy],
       ProxyRemovedBroadcasts := self.ProxyRemovedBroadcasts },
     Proxy)

/-- The test of GetProxies on one proxy:
(IncludeUnshared || IsShared() || GetHostUser() == UserName) and
(TargetPlatformName == NAME_None || HasTargetPlatform(TargetPlatformName)). -/
def IsListed (CurrentUser TargetPlatformName : Nat) (IncludeUnshared : Bool)
    (Proxy : FTargetDeviceProxy) : Bool :=
  ((IncludeUnshared || Proxy.bShared) || decide (Proxy.HostUser = CurrentUser)) &&
    (decide (TargetPlatformName = NAME_None) ||
      decide (TargetPlatformName ∈ Proxy.TargetPlatforms))

/-- The loop of GetProxies over the entries of the map, OutProxies being the
array filled so far. Dereferencing a null pointer has no result. -/
def GetProxiesLoop (CurrentUser TargetPlatformName : Nat) (IncludeUnshared : Bool) :
    List (Nat × Option FTargetDeviceProxy) → List FTargetDeviceProxy →
      Option (List FTargetDeviceProxy)
  | [], OutProxies => some OutProxies
  | (_, none) :: _, _ => none
  | (_, some Proxy) :: rest, OutProxies =>
    if IsListed CurrentUser TargetPlatformName IncludeUnshared Proxy then
      GetProxiesLoop CurrentUser TargetPlatformName IncludeUnshared rest (OutProxies ++ [Proxy])
    else
      GetProxiesLoop CurrentUser TargetPlatformName IncludeUnshared rest OutProxies

/-- FTargetDeviceProxyManager::GetProxies. CurrentUser is
FPlatformProcess::UserName(true). OutProxies.Reset() empties the array passed
in. Returns the manager after the call and the array. -/
def GetProxies (self : FTargetDeviceProxyManager) (CurrentUser TargetPlatformName : Nat)
    (IncludeUnshared : Bool) (_OutProxies : List FTargetDeviceProxy) :
    Option (FTargetDeviceProxyManager × List FTargetDeviceProxy) :=
  (GetProxiesLoop CurrentUser TargetPlatformName IncludeUnshared self.Proxies []).map
    (fun Out => (self, Out))

/-- The test of RemoveDeadProxies on one proxy: GetLastUpdateTime() +
FTimespan::FromSeconds(3.0 * TARGET_DEVICE_SERVICES_PING_INTERVAL) < CurrentTime,
in exact arithmetic; PingInterval is the macro, defined elsewhere. -/
def IsDead (CurrentTime PingInterval : ℚ) (Proxy : FTargetDeviceProxy) : Bool :=
  decide (Proxy.LastUpdateTime + 3 * PingInterval < CurrentTime)

/-- The loop of RemoveDeadProxies over the entries of the map: the entries
that stay, and the broadcasts of ProxyRemovedDelegate (Removed holds those made
so far). Dereferencing a null pointer has no result. -/
def RemoveDeadProxiesLoop (CurrentTime PingInterval : ℚ) :
    List (Nat × Option FTargetDeviceProxy) → List FTargetDeviceProxy →
      Option (List (Nat × Option FTargetDeviceProxy) × List FTargetDeviceProxy)
  | [], Removed => some ([], Removed)
  | (_, none) :: _, _ => none
  | (Key, some Proxy) :: rest, Removed =>
    if IsDead CurrentTime PingInterval Proxy then
      RemoveDeadProxiesLoop CurrentTime PingInterval rest (Removed ++ [Proxy])
    else
      (RemoveDeadProxiesLoop CurrentTime PingInterval rest Removed).map
        (fun r => ((Key, some Proxy) :: r.1, r.2))

/-- Whether an entry of the map holds a proxy that RemoveDeadProxies finds
dead. -/
def EntryIsDead (CurrentTime PingInterval : ℚ) (e : Nat × Option FTargetDeviceProxy) : Bool :=
  match e.2 with
  | some Proxy => IsDead CurrentTime PingInterval Proxy
  | none => false

/-- FTargetDeviceProxyManager::RemoveDeadProxies. CurrentTime is
FDateTime::UtcNow(). -/
def RemoveDeadProxies (self : FTargetDeviceProxyManager) (CurrentTime PingInterval : ℚ) :
    Option FTargetDeviceProxyManager :=
  (RemoveDeadProxiesLoop CurrentTime PingInterval self.Proxies self.ProxyRemovedBroadcasts).map
    (fun r =>
      { Proxies := r.1, ProxyAddedBroadcasts := self.ProxyAddedBroadcasts,
        ProxyRemovedBroadcasts := r.2 })

end FTargetDeviceProxyManager

/-! ## UK2Node_EaseFunction (K2Node_EaseFunction.cpp) -/

/-- INDEX_NONE, the invalid index. -/
def INDEX_NONE : Int := -1

namespace FEaseFunctionNodeHelper

/-- GetEaseFuncPinName: the handle of the name "Function". -/
def GetEaseFuncPinName : Nat := 1

/-- GetAlphaPinName: the handle of the name "Alpha". -/
def GetAlphaPinName : Nat := 2

/-- GetAPinName: the handle of the name "A". -/
def GetAPinName : Nat := 3

/-- GetBPinName: the handle of the name "B". -/
def GetBPinName : Nat := 4

/-- GetResultPinName: the handle of the name "Result". -/
def GetResultPinName : Nat := 5

/-- GetBlendExpPinName: the handle of the name "BlendExp". -/
def GetBlendExpPinName : Nat := 6

/-- GetStepsPinName: the handle of the name "Steps". -/
def GetStepsPinName : Nat := 7

/-- GetShortestPathPinName: the handle of the name "ShortestPath". -/
def GetShortestPathPinName : Nat := 8

end FEaseFunctionNodeHelper

/-- The enumerators of EEasingFunc that the node names. The enum is declared
elsewhere, so their values are inputs. -/
structure EEasingFunc where
  Step : Int
  EaseIn : Int
  EaseOut : Int
  EaseInOut : Int
  deriving DecidableEq, Repr

/-- What the language guarantees about the four enumerators: they are
non-negative and, being case labels of one switch, pairwise different. -/
def EEasingFunc.WellFormed (E : EEasingFunc) : Prop :=
  0 ≤ E.Step ∧ 0 ≤ E.EaseIn ∧ 0 ≤ E.EaseOut ∧ 0 ≤ E.EaseInOut ∧
  E.Step ≠ E.EaseIn ∧ E.Step ≠ E.EaseOut ∧ E.Step ≠ E.EaseInOut ∧
  E.EaseIn ≠ E.EaseOut ∧ E.EaseIn ≠ E.EaseInOut ∧ E.EaseOut ≠ E.EaseInOut

/-- The test of GenerateCustomPins on an easing function:
f == EaseIn || f == EaseOut || f == EaseInOut. -/
def EEasingFunc.IsEase (E : EEasingFunc) (f : Int) : Bool :=
  decide (f = E.EaseIn) || decide (f = E.EaseOut) || decide (f = E.EaseInOut)

/-- UEdGraphPin, as far as the node's custom pin code reads it: PinId is the
identity of the object (its address), PinName a name handle, DefaultValue the
default value string. Links and tooltips are left out. -/
structure UEdGraphPin where
  PinId : Nat
  PinName : Nat
  DefaultValue : String
  deriving DecidableEq, Repr

/-- An element of CustomPinNames: the name of the pin on the node, the name of
the pin on the called function, and whether the pin is a value pin. -/
structure FCustomPin where
  PinName : Nat
  CallFuncPinName : Nat
  bValuePin : Bool
  deriving DecidableEq, Repr

/-- UK2Node_EaseFunction: the pins of the node, the custom pin records and
the easing function the custom pins were last generated for. -/
structure UK2Node_EaseFunction where
  Pins : List UEdGraphPin
  CustomPinNames : List FCustomPin
  OldEasingFunc : Int
  deriving DecidableEq, Repr

namespace UK2Node_EaseFunction

/-- UK2Node_EaseFunction::UK2Node_EaseFunction: OldEasingFunc = INDEX_NONE, no
pin and no custom pin record yet. -/
def ctor : UK2Node_EaseFunction :=
  { Pins := [], CustomPinNames := [], OldEasingFunc := INDEX_NONE }

/-- Modelled from the spec: UEdGraphNode::FindPin is missing (the spec leaves
Blueprint-node pin management to a collaborator); the first pin of the node
with the given name, or the null pointer. -/
def FindPin (Pins : List UEdGraphPin) (PinName : Nat) : Option UEdGraphPin :=
  Pins.find? (fun Pin => decide (Pin.PinName = PinName))

/-- Modelled from the spec: UEdGraphNode::CreatePin is missing; a new pin
object (identity PinId) with the given name and an empty default value. The
caller adds it at the end of Pins. -/
def CreatePin (PinId PinName : Nat) : UEdGraphPin :=
  { PinId := PinId, PinName := PinName, DefaultValue := "" }

/-- The loop of RemoveCustomPins, which visits the records from the last to the
first: the records after the loop, the pins after the loop and bResult.
For a record whose bValuePin equals bRemoveValuePins the record is removed, and
if FindPin finds its pin then Pins.Remove(CustomPin) removes that pin object
and bResult becomes true. -/
def RemoveCustomPinsLoop (bRemoveValuePins : Bool) :
    List FCustomPin → List UEdGraphPin → Bool → List FCustomPin × List UEdGraphPin × Bool
  | [], Pins, bResult => ([], Pins, bResult)
  | Entry :: Earlier, Pins, bResult =>
    let r := RemoveCustomPinsLoop bRemoveValuePins Earlier Pins bResult
    let CustomPin := FindPin r.2.1 Entry.PinName
    if Entry.bValuePin = bRemoveValuePins then
      match CustomPin with
      | some Pin => (r.1, r.2.1.filter (fun q => decide (q ≠ Pin)), true)
      | none => (r.1, r.2.1, r.2.2)
    else
      (Entry :: r.1, r.2.1, r.2.2)

/-- UK2Node_EaseFunction::RemoveCustomPins. Returns the node after the call and
the result. -/
def RemoveCustomPins (self : UK2Node_EaseFunction) (bRemoveValuePins : Bool) :
    UK2Node_EaseFunction × Bool :=
  let r := RemoveCustomPinsLoop bRemoveValuePins self.CustomPinNames self.Pins false
  ({ self with Pins := r.2.1, CustomPinNames := r.1 }, r.2.2)

/-- The record added for the BlendExp pin. -/
def BlendExpRecord : FCustomPin :=
  { PinName := FEaseFunctionNodeHelper.GetBlendExpPinName,
    CallFuncPinName := FEaseFunctionNodeHelper.GetBlendExpPinName, bValuePin := false }

/-- The record added for the Steps pin. -/
def StepsRecord : FCustomPin :=
  { PinName := FEaseFunctionNodeHelper.GetStepsPinName,
    CallFuncPinName := FEaseFunctionNodeHelper.GetStepsPinName, bValuePin := false }

/-- The default value given to a custom pin that has none:
if (CustomPin->DefaultValue.Len() == 0) CustomPin->DefaultValue = Value. -/
def WithDefaultValue (Pin : UEdGraphPin) (Value : String) : UEdGraphPin :=
  if Pin.DefaultValue.length = 0 then { Pin with DefaultValue := Value } else Pin

/-- UK2Node_EaseFunction::GenerateCustomPins. E holds the enumerators,
NewPinId is the identity of the pin object that CreatePin makes if it is
called. Returns the node after the call and the result. -/
def GenerateCustomPins (E : EEasingFunc) (NewPinId : Nat) (self : UK2Node_EaseFunction)
    (NewEasingFunc : Int) : UK2Node_EaseFunction × Bool :=
  if decide (self.OldEasingFunc = NewEasingFunc) ||
      (E.IsEase self.OldEasingFunc && E.IsEase NewEasingFunc) then
    ({ self with OldEasingFunc := NewEasingFunc }, false)
  else
    let r := self.RemoveCustomPins false
    let bResult := false || r.2
    if E.IsEase NewEasingFunc then
      let CustomPin :=
        WithDefaultValue (CreatePin NewPinId FEaseFunctionNodeHelper.GetBlendExpPinName) "2.0"
      ({ Pins := r.1.Pins ++ [CustomPin],
         CustomPinNames := r.1.CustomPinNames ++ [BlendExpRecord],
         OldEasingFunc := NewEasingFunc },
       bResult || true)
    else if NewEasingFunc = E.Step then
      let CustomPin :=
        WithDefaultValue (CreatePin NewPinId FEaseFunctionNodeHelper.GetStepsPinName) "2"
      ({ Pins := r.1.Pins ++ [CustomPin],
         CustomPinNames := r.1.CustomPinNames ++ [StepsRecord],
         OldEasingFunc := NewEasingFunc },
       bResult || true)
    else
      ({ r.1 with OldEasingFunc := NewEasingFunc }, bResult)

/-- A sequence of GenerateCustomPins calls; each request is the easing
function asked for and the identity of the pin object the call may create. -/
def GenerateCustomPinsSeq (E : EEasingFunc) :
    List (Int × Nat) → UK2Node_EaseFunction → UK2Node_EaseFunction
  | [], self => self
  | Request :: Later, self =>
    GenerateCustomPinsSeq E Later (GenerateCustomPins E Request.2 self Request.1).1

/-- The records of CustomPinNames that are not value pins. -/
def NonValueRecords (self : UK2Node_EaseFunction) : List FCustomPin :=
  self.CustomPinNames.filter (fun Entry => !Entry.bValuePin)

/-- The non-value records that belong to an easing function: the BlendExp
record for EaseIn, EaseOut and EaseInOut, the Steps record for Step, none for
any other value. -/
def RecordsFor (E : EEasingFunc) (EasingFunc : Int) : List FCustomPin :=
  if E.IsEase EasingFunc then [BlendExpRecord]
  else if EasingFunc = E.Step then [StepsRecord]
  else []

end UK2Node_EaseFunction

/-! ## Theorems: node index priority -/

/-- C1: whenever A.InstanceIndex < B.InstanceIndex, A takes priority over B and
B does not take priority over A, whatever the two execution indices are. -/
theorem takesPriorityOver_of_instance_lt (A B : FBTNodeIndex)
    (h : A.InstanceIndex < B.InstanceIndex) :
    A.TakesPriorityOver B = true ∧ B.TakesPriorityOver A = false := by
  have hne : A.InstanceIndex ≠ B.InstanceIndex := Nat.ne_of_lt h
  have hne2 : B.InstanceIndex ≠ A.InstanceIndex := fun e => hne e.symm
  have hnlt : ¬ B.InstanceIndex < A.InstanceIndex := Nat.lt_asymm h
  constructor
  · simp [FBTNodeIndex.TakesPriorityOver, hne, h]
  · simp only [FBTNodeIndex.TakesPriorityOver, hne2, ne_eq, not_false_eq_true, if_true]
    simpa using Nat.le_of_lt h

/-- Witness for C1: instance 0 with the largest execution index outranks
instance 1 with execution index 0. -/
theorem takesPriorityOver_of_instance_lt_witness :
    (0 : Nat) < 1 ∧
      ((FBTNodeIndex.mk 0 65535).TakesPriorityOver (FBTNodeIndex.mk 1 0) = true ∧
        (FBTNodeIndex.mk 1 0).TakesPriorityOver (FBTNodeIndex.mk 0 65535) = false) :=
  ⟨by decide, takesPriorityOver_of_instance_lt ⟨0, 65535⟩ ⟨1, 0⟩ (by decide)⟩

/-- C2: for equal instance indices, A takes priority over B exactly when
A.ExecutionIndex < B.ExecutionIndex. -/
theorem takesPriorityOver_iff_of_instance_eq (A B : FBTNodeIndex)
    (h : A.InstanceIndex = B.InstanceIndex) :
    A.TakesPriorityOver B = true ↔ A.ExecutionIndex < B.ExecutionIndex := by
  simp [FBTNodeIndex.TakesPriorityOver, h]

/-- Witness for C2: two indices of instance 2, execution indices 3 and 7. -/
theorem takesPriorityOver_iff_of_instance_eq_witness :
    (2 : Nat) = 2 ∧
      ((FBTNodeIndex.mk 2 3).TakesPriorityOver (FBTNodeIndex.mk 2 7) = true ↔ (3 : Nat) < 7) :=
  ⟨rfl, takesPriorityOver_iff_of_instance_eq ⟨2, 3⟩ ⟨2, 7⟩ rfl⟩

/-- The priority relation unfolded into arithmetic: lexicographic order on
(InstanceIndex, ExecutionIndex). -/
theorem takesPriorityOver_iff_lex (A B : FBTNodeIndex) :
    A.TakesPriorityOver B = true ↔
      A.InstanceIndex < B.InstanceIndex ∨
        (A.InstanceIndex = B.InstanceIndex ∧ A.ExecutionIndex < B.ExecutionIndex) := by
  unfold FBTNodeIndex.TakesPriorityOver
  by_cases h : A.InstanceIndex = B.InstanceIndex
  · simp [h]
  · simp [h]

/-- C3: TakesPriorityOver is a strict total order: irreflexive, transitive, and
for two indices that are not equal under operator== exactly one of the two
takes priority over the other. -/
theorem takesPriorityOver_strict_total_order :
    (∀ A : FBTNodeIndex, A.TakesPriorityOver A = false) ∧
    (∀ A B C : FBTNodeIndex, A.TakesPriorityOver B = true → B.TakesPriorityOver C = true →
      A.TakesPriorityOver C = true) ∧
    (∀ A B : FBTNodeIndex, A.eq B = false →
      ((A.TakesPriorityOver B = true ∧ B.TakesPriorityOver A = false) ∨
        (A.TakesPriorityOver B = false ∧ B.TakesPriorityOver A = true))) := by
  refine ⟨?_, ?_, ?_⟩
  · intro A
    simp [FBTNodeIndex.TakesPriorityOver]
  · intro A B C hAB hBC
    rw [takesPriorityOver_iff_lex] at hAB hBC ⊢
    omega
  · intro A B hne
    have hne2 : ¬ (A.ExecutionIndex = B.ExecutionIndex ∧ A.InstanceIndex = B.InstanceIndex) := by
      intro h
      simp [FBTNodeIndex.eq, h.1, h.2] at hne
    have hAB := takesPriorityOver_iff_lex A B
    have hBA := takesPriorityOver_iff_lex B A
    rw [← Bool.not_eq_true (A.TakesPriorityOver B), ← Bool.not_eq_true (B.TakesPriorityOver A),
      hAB, hBA]
    omega

/-! ## Theorems: pending updates -/

/-- SameNode compares the pair of node pointers. -/
theorem sameNode_iff (a b : FBehaviorTreeSearchUpdate) :
    a.SameNode b = true ↔ a.AuxNode = b.AuxNode ∧ a.TaskNode = b.TaskNode := by
  simp [FBehaviorTreeSearchUpdate.SameNode]

/-- After AddUniqueUpdate the queue holds exactly one entry for the node of
the update, the update itself. -/
theorem entriesFor_addUniqueUpdate_self (sd : FBehaviorTreeSearchData)
    (u : FBehaviorTreeSearchUpdate) : (sd.AddUniqueUpdate u).EntriesFor u = [u] := by
  have hu : u.SameNode u = true := by simp [FBehaviorTreeSearchUpdate.SameNode]
  simp [FBehaviorTreeSearchData.EntriesFor, FBehaviorTreeSearchData.AddUniqueUpdate,
    List.filter_append, List.filter_filter, hu]

/-- Entries for one node are the entries for any update of the same node. -/
theorem entriesFor_congr (sd : FBehaviorTreeSearchData) (a b : FBehaviorTreeSearchUpdate)
    (h : a.SameNode b = true) : sd.EntriesFor a = sd.EntriesFor b := by
  rw [sameNode_iff] at h
  unfold FBehaviorTreeSearchData.EntriesFor
  apply List.filter_congr
  intro x _
  simp [FBehaviorTreeSearchUpdate.SameNode, h.1, h.2]

/-- AddUniqueUpdate keeps a queue free of two entries for one node. -/
theorem pairwise_addUniqueUpdate (sd : FBehaviorTreeSearchData) (u : FBehaviorTreeSearchUpdate)
    (h : sd.PendingUpdates.Pairwise (fun a b => a.SameNode b = false)) :
    (sd.AddUniqueUpdate u).PendingUpdates.Pairwise (fun a b => a.SameNode b = false) := by
  unfold FBehaviorTreeSearchData.AddUniqueUpdate
  simp only
  rw [List.pairwise_append]
  refine ⟨List.Pairwise.sublist (List.filter_sublist _) h, List.pairwise_singleton _ _, ?_⟩
  intro a ha b hb
  rw [List.mem_singleton] at hb
  subst hb
  simpa using (List.mem_filter.mp ha).2

/-- The queue reached from an empty one by any sequence of AddUniqueUpdate
calls has no two entries for one node. -/
theorem pairwise_foldl_addUniqueUpdate (us : List FBehaviorTreeSearchUpdate) :
    ∀ sd : FBehaviorTreeSearchData,
      sd.PendingUpdates.Pairwise (fun a b => a.SameNode b = false) →
      (us.foldl FBehaviorTreeSearchData.AddUniqueUpdate sd).PendingUpdates.Pairwise
        (fun a b => a.SameNode b = false) := by
  induction us with
  | nil => intro sd h; simpa using h
  | cons u us ih =>
    intro sd h
    simpa [List.foldl_cons] using ih (sd.AddUniqueUpdate u) (pairwise_addUniqueUpdate sd u h)

/-- A list without two entries for one node has at most one entry per node. -/
theorem length_filter_sameNode_le_one (u : FBehaviorTreeSearchUpdate) :
    ∀ l : List FBehaviorTreeSearchUpdate, l.Pairwise (fun a b => a.SameNode b = false) →
      (l.filter (fun Info => Info.SameNode u)).length ≤ 1 := by
  intro l
  induction l with
  | nil => intro _; simp
  | cons a l ih =>
    intro h
    rw [List.pairwise_cons] at h
    by_cases hau : a.SameNode u = true
    · have hnil : l.filter (fun Info => Info.SameNode u) = [] := by
        rw [List.filter_eq_nil_iff]
        intro b hb hbu
        have hab := h.1 b hb
        rw [sameNode_iff] at hau hbu
        have : a.SameNode b = true := by
          rw [sameNode_iff]
          exact ⟨hau.1.trans hbu.1.symm, hau.2.trans hbu.2.symm⟩
        rw [hab] at this
        exact Bool.false_ne_true this
      simp [List.filter_cons, hau, hnil]
    · have := ih h.2
      simpa [List.filter_cons, hau] using this

/-- C4: when PendingUpdates holds no entry for node N, AddUniqueUpdate with an
Add update for N followed by AddUniqueUpdate with a Remove update for N leaves
exactly one entry for N, the Remove update (so no Add entry for N remains). -/
theorem addUniqueUpdate_add_then_remove (sd : FBehaviorTreeSearchData)
    (a r : FBehaviorTreeSearchUpdate)
    (hN : a.SameNode r = true)
    (ha : a.Mode = EBTNodeUpdateMode.Add) (hr : r.Mode = EBTNodeUpdateMode.Remove)
    (hfresh : sd.EntriesFor a = []) :
    ((sd.AddUniqueUpdate a).AddUniqueUpdate r).EntriesFor a = [r] ∧
      (((sd.AddUniqueUpdate a).AddUniqueUpdate r).EntriesFor a).map (fun e => e.Mode)
        = [EBTNodeUpdateMode.Remove] ∧
      ∀ e ∈ ((sd.AddUniqueUpdate a).AddUniqueUpdate r).PendingUpdates,
        e.SameNode a = true → e.Mode ≠ EBTNodeUpdateMode.Add := by
  have h1 : ((sd.AddUniqueUpdate a).AddUniqueUpdate r).EntriesFor a = [r] := by
    rw [entriesFor_congr _ a r hN]
    exact entriesFor_addUniqueUpdate_self _ r
  refine ⟨h1, ?_, ?_⟩
  · rw [h1]
    simp [hr]
  · intro e he hea
    have hmem : e ∈ ((sd.AddUniqueUpdate a).AddUniqueUpdate r).EntriesFor a := by
      unfold FBehaviorTreeSearchData.EntriesFor
      exact List.mem_filter.mpr ⟨he, hea⟩
    rw [h1, List.mem_singleton] at hmem
    rw [hmem, hr]
    decide

/-- Witness for C4: an empty queue, then Add and Remove for the auxiliary node
with handle 7. -/
theorem addUniqueUpdate_add_then_remove_witness :
    ((((FBehaviorTreeSearchData.mk 1 [] ⟨65535, 65535⟩ ⟨65535, 65535⟩ 0).AddUniqueUpdate
        ⟨7, 0, 0, EBTNodeUpdateMode.Add, false⟩).AddUniqueUpdate
        ⟨7, 0, 0, EBTNodeUpdateMode.Remove, false⟩).EntriesFor
        ⟨7, 0, 0, EBTNodeUpdateMode.Add, false⟩
      = [⟨7, 0, 0, EBTNodeUpdateMode.Remove, false⟩]) :=
  (addUniqueUpdate_add_then_remove (FBehaviorTreeSearchData.mk 1 [] ⟨65535, 65535⟩ ⟨65535, 65535⟩ 0)
    ⟨7, 0, 0, EBTNodeUpdateMode.Add, false⟩ ⟨7, 0, 0, EBTNodeUpdateMode.Remove, false⟩
    (by decide) rfl rfl (by decide)).1

/-- C5: starting from an empty PendingUpdates list, after any sequence of
AddUniqueUpdate calls the list holds at most one entry per node (same AuxNode
and same TaskNode); and one more AddUniqueUpdate leaves the new update as the
only entry for its node while every entry for another node is kept. -/
theorem addUniqueUpdate_at_most_one_per_node (sd0 : FBehaviorTreeSearchData)
    (h0 : sd0.PendingUpdates = []) (us : List FBehaviorTreeSearchUpdate) :
    (∀ n : FBehaviorTreeSearchUpdate,
      ((us.foldl FBehaviorTreeSearchData.AddUniqueUpdate sd0).EntriesFor n).length ≤ 1) ∧
    (us.foldl FBehaviorTreeSearchData.AddUniqueUpdate sd0).PendingUpdates.Pairwise
      (fun a b => ¬ (a.AuxNode = b.AuxNode ∧ a.TaskNode = b.TaskNode)) ∧
    (∀ u : FBehaviorTreeSearchUpdate,
      ((us.foldl FBehaviorTreeSearchData.AddUniqueUpdate sd0).AddUniqueUpdate u).EntriesFor u = [u] ∧
      ((us.foldl FBehaviorTreeSearchData.AddUniqueUpdate sd0).AddUniqueUpdate u).PendingUpdates
        = (us.foldl FBehaviorTreeSearchData.AddUniqueUpdate sd0).PendingUpdates.filter
            (fun Info => !(Info.SameNode u)) ++ [u]) := by
  have hP := pairwise_foldl_addUniqueUpdate us sd0 (by rw [h0]; exact List.Pairwise.nil)
  refine ⟨?_, ?_, ?_⟩
  · intro n
    exact length_filter_sameNode_le_one n _ hP
  · refine List.Pairwise.imp ?_ hP
    intro a b hab hcontra
    rw [(sameNode_iff a b).mpr hcontra] at hab
    exact Bool.noConfusion hab
  · intro u
    exact ⟨entriesFor_addUniqueUpdate_self _ u, rfl⟩

/-- Witness for C5: Add for node 7, Add for node 8, then Remove for node 7,
from an empty queue. -/
theorem addUniqueUpdate_at_most_one_per_node_witness :
    (((([⟨7, 0, 0, EBTNodeUpdateMode.Add, false⟩, ⟨8, 0, 0, EBTNodeUpdateMode.Add, false⟩,
        ⟨7, 0, 0, EBTNodeUpdateMode.Remove, false⟩] : List FBehaviorTreeSearchUpdate).foldl
      FBehaviorTreeSearchData.AddUniqueUpdate
      (FBehaviorTreeSearchData.mk 1 [] ⟨65535, 65535⟩ ⟨65535, 65535⟩ 0)).EntriesFor
        ⟨7, 0, 0, EBTNodeUpdateMode.Add, false⟩).length ≤ 1) :=
  (addUniqueUpdate_at_most_one_per_node
    (FBehaviorTreeSearchData.mk 1 [] ⟨65535, 65535⟩ ⟨65535, 65535⟩ 0) rfl
    [⟨7, 0, 0, EBTNodeUpdateMode.Add, false⟩, ⟨8, 0, 0, EBTNodeUpdateMode.Add, false⟩,
      ⟨7, 0, 0, EBTNodeUpdateMode.Remove, false⟩]).1 ⟨7, 0, 0, EBTNodeUpdateMode.Add, false⟩

/-! ## Theorems: subtree instance identifiers -/

/-- C6: two identifiers compare equal exactly when TreeAsset and Path agree;
replacing RootNode, InstanceMemory and FirstNodeInstance on either side never
changes the result. -/
theorem instanceId_eq_iff_asset_path :
    (∀ a b : FBehaviorTreeInstanceId,
      a.eq b = true ↔ (a.TreeAsset = b.TreeAsset ∧ a.Path = b.Path)) ∧
    (∀ (a b : FBehaviorTreeInstanceId) (r1 r2 : Nat) (m1 m2 : List Nat) (f1 f2 : Int),
      FBehaviorTreeInstanceId.eq
          { a with RootNode := r1, InstanceMemory := m1, FirstNodeInstance := f1 }
          { b with RootNode := r2, InstanceMemory := m2, FirstNodeInstance := f2 }
        = a.eq b) := by
  constructor
  · intro a b
    simp [FBehaviorTreeInstanceId.eq]
  · intro a b r1 r2 m1 m2 f1 f2
    rfl

/-! ## Theorems: instance stack manager -/

/-- An identifier found in the table is found at a valid index. -/
theorem indexOfInstanceId_lt (id : FBehaviorTreeInstanceId) :
    ∀ (known : List FBehaviorTreeInstanceId) (i : Nat),
      IndexOfInstanceId id known = some i → i < known.length := by
  intro known
  induction known with
  | nil => intro i h; simp [IndexOfInstanceId] at h
  | cons x xs ih =>
    intro i h
    unfold IndexOfInstanceId at h
    by_cases hx : x.eq id = true
    · simp [hx] at h
      subst h
      simp
    · cases hrec : IndexOfInstanceId id xs with
      | none => simp [hx, hrec] at h
      | some j =>
        simp [hx, hrec] at h
        have := ih j hrec
        subst h
        simp
        omega

/-- An identifier added at the end of a table that did not know it is found
there. -/
theorem indexOfInstanceId_append_self (id : FBehaviorTreeInstanceId) :
    ∀ known : List FBehaviorTreeInstanceId, IndexOfInstanceId id known = none →
      IndexOfInstanceId id (known ++ [id]) = some known.length := by
  intro known
  induction known with
  | nil =>
    intro _
    simp [IndexOfInstanceId, FBehaviorTreeInstanceId.eq]
  | cons x xs ih =>
    intro h
    unfold IndexOfInstanceId at h
    by_cases hx : x.eq id = true
    · simp [hx] at h
    · cases hrec : IndexOfInstanceId id xs with
      | none => simp [IndexOfInstanceId, hx, ih hrec]
      | some j => simp [hx, hrec] at h

/-- An identifier that is found is reused by UpdateInstanceId, and the table is
left as it is. -/
theorem updateInstanceId_of_indexOf (known : List FBehaviorTreeInstanceId)
    (id : FBehaviorTreeInstanceId) (i : Nat) (h : IndexOfInstanceId id known = some i) :
    UpdateInstanceId known id = (known, i) := by
  simp [UpdateInstanceId, h]

/-- UpdateInstanceId returns an index at which the identifier is found. -/
theorem indexOfInstanceId_updateInstanceId (known : List FBehaviorTreeInstanceId)
    (id : FBehaviorTreeInstanceId) :
    IndexOfInstanceId id (UpdateInstanceId known id).1 = some (UpdateInstanceId known id).2 := by
  unfold UpdateInstanceId
  cases h : IndexOfInstanceId id known with
  | none => simpa using indexOfInstanceId_append_self id known h
  | some idx => simpa using h

/-- Persisting memory in an identifier does not change which identifier a
lookup finds (operator== ignores InstanceMemory). -/
theorem indexOfInstanceId_setPersistedMemory (id : FBehaviorTreeInstanceId) (mem : List Nat) :
    ∀ (known : List FBehaviorTreeInstanceId) (i : Nat),
      IndexOfInstanceId id (SetPersistedMemory known i mem) = IndexOfInstanceId id known := by
  intro known
  induction known with
  | nil => intro i; rfl
  | cons x xs ih =>
    intro i
    cases i with
    | zero => rfl
    | succ j => simp [SetPersistedMemory, IndexOfInstanceId, ih j]

/-- Reading back the memory persisted in a valid identifier. -/
theorem persistedMemory_setPersistedMemory (mem : List Nat) :
    ∀ (known : List FBehaviorTreeInstanceId) (i : Nat), i < known.length →
      PersistedMemory (SetPersistedMemory known i mem) i = mem := by
  intro known
  induction known with
  | nil => intro i h; simp at h
  | cons x xs ih =>
    intro i h
    cases i with
    | zero => simp [SetPersistedMemory, PersistedMemory]
    | succ j =>
      have hj : j < xs.length := by simpa using h
      have := ih j hj
      simpa [SetPersistedMemory, PersistedMemory] using this

/-- A block of the declared size is left as it is by FitBlock. -/
theorem fitBlock_of_length (size : Nat) (block : List Nat) (h : block.length = size) :
    FitBlock size block = block := by
  unfold FitBlock
  rw [List.take_append_of_le_length (by omega), List.take_of_length_le (by omega)]

/-- FitBlock always yields a block of the declared size. -/
theorem length_fitBlock (size : Nat) (block : List Nat) : (FitBlock size block).length = size := by
  simp [FitBlock]

/-- Node callbacks never resize a buffer that holds all node blocks. -/
theorem length_forEachNodeMemory (f : BTNodeTemplate → List Nat → List Nat) :
    ∀ (nodes : List BTNodeTemplate) (mem : List Nat),
      (nodes.map (fun n => n.InstanceMemorySize)).sum ≤ mem.length →
      (ForEachNodeMemory f nodes mem).length = mem.length := by
  intro nodes
  induction nodes with
  | nil => intro mem _; rfl
  | cons n ns ih =>
    intro mem h
    simp only [List.map_cons, List.sum_cons] at h
    have hrec := ih (mem.drop n.InstanceMemorySize) (by simp; omega)
    simp only [ForEachNodeMemory, List.length_append, length_fitBlock, hrec, List.length_drop]
    omega

/-- Callbacks that leave every block of the declared size unchanged leave the
whole buffer unchanged. -/
theorem forEachNodeMemory_of_preserving (f : BTNodeTemplate → List Nat → List Nat) :
    ∀ (nodes : List BTNodeTemplate) (mem : List Nat),
      (∀ n ∈ nodes, ∀ block : List Nat, block.length = n.InstanceMemorySize → f n block = block) →
      (nodes.map (fun n => n.InstanceMemorySize)).sum ≤ mem.length →
      ForEachNodeMemory f nodes mem = mem := by
  intro nodes
  induction nodes with
  | nil => intro mem _ _; rfl
  | cons n ns ih =>
    intro mem hf h
    simp only [List.map_cons, List.sum_cons] at h
    have htake : (mem.take n.InstanceMemorySize).length = n.InstanceMemorySize := by
      simp; omega
    have hrec := ih (mem.drop n.InstanceMemorySize)
      (fun m hm => hf m (List.mem_cons_of_mem _ hm)) (by simp; omega)
    simp only [ForEachNodeMemory]
    rw [hf n (List.mem_cons_self _ _) _ htake, fitBlock_of_length _ _ htake, hrec,
      List.take_append_drop]

/-- Pushing a subtree whose identifier is known and holds persisted memory of
the right size, in RestoreSubtree mode: the instance memory is what the
initialize-memory callbacks leave of the persisted buffer. -/
theorem pushInstance_restore (stack : List BTStackEntry) (known : List FBehaviorTreeInstanceId)
    (tree : BTTreeTemplate) (path : List Nat) (i : Nat)
    (hidx : IndexOfInstanceId
      { TreeAsset := tree.TreeAsset, RootNode := tree.RootNode, Path := path,
        InstanceMemory := [], FirstNodeInstance := -1 } known = some i)
    (hsize : (PersistedMemory known i).length = tree.InstanceMemorySize) :
    ((UBehaviorTreeComponent.PushInstance { InstanceStack := stack, KnownInstances := known }
        tree path EBTMemoryInit.RestoreSubtree).1.InstanceStack.getLast?).map
        (fun e => e.Instance.InstanceMemory)
      = some (ForEachNodeMemory (fun n => n.InitializeMemory EBTMemoryInit.RestoreSubtree)
          tree.Nodes (PersistedMemory known i)) := by
  simp [UBehaviorTreeComponent.PushInstance, updateInstanceId_of_indexOf _ _ _ hidx, hidx, hsize,
    List.getLast?_concat]

/-- The index UpdateInstanceId returns is at most the number of identifiers
known before the call. -/
theorem updateInstanceId_index_le (known : List FBehaviorTreeInstanceId)
    (id : FBehaviorTreeInstanceId) : (UpdateInstanceId known id).2 ≤ known.length := by
  unfold UpdateInstanceId
  cases h : IndexOfInstanceId id known with
  | none => simp
  | some idx => exact Nat.le_of_lt (indexOfInstanceId_lt id known idx h)

/-- Writing the instance memory of a freshly pushed instance and popping it
with StoreSubtree, the table having room for an index that fits a uint8: the
stack is as before the push, and the buffer left by the cleanup callbacks is
persisted in the identifier of the instance. -/
theorem popInstance_store_after_push (comp : UBehaviorTreeComponent) (tree : BTTreeTemplate)
    (path : List Nat) (firstMode : EBTMemoryInit) (written : List Nat)
    (hroom : comp.KnownInstances.length < 256) :
    (((comp.PushInstance tree path firstMode).1.WriteActiveInstanceMemory written).InstanceStack.getLast?).map
        (fun e => e.Instance.InstanceIdIndex.val)
      = some (UpdateInstanceId comp.KnownInstances
          { TreeAsset := tree.TreeAsset, RootNode := tree.RootNode, Path := path,
            InstanceMemory := [], FirstNodeInstance := -1 }).2 ∧
    ((comp.PushInstance tree path firstMode).1.WriteActiveInstanceMemory written).PopInstance
        EBTMemoryClear.StoreSubtree
      = some
          { InstanceStack := comp.InstanceStack,
            KnownInstances :=
              SetPersistedMemory
                (UpdateInstanceId comp.KnownInstances
                  { TreeAsset := tree.TreeAsset, RootNode := tree.RootNode, Path := path,
                    InstanceMemory := [], FirstNodeInstance := -1 }).1
                (UpdateInstanceId comp.KnownInstances
                  { TreeAsset := tree.TreeAsset, RootNode := tree.RootNode, Path := path,
                    InstanceMemory := [], FirstNodeInstance := -1 }).2
                (ForEachNodeMemory (fun n => n.CleanupMemory EBTMemoryClear.StoreSubtree)
                  tree.Nodes written) } := by
  have hidx := updateInstanceId_index_le comp.KnownInstances
    { TreeAsset := tree.TreeAsset, RootNode := tree.RootNode, Path := path,
      InstanceMemory := [], FirstNodeInstance := -1 }
  have hfit : ToUInt8 (UpdateInstanceId comp.KnownInstances
      { TreeAsset := tree.TreeAsset, RootNode := tree.RootNode, Path := path,
        InstanceMemory := [], FirstNodeInstance := -1 }).2
      = (UpdateInstanceId comp.KnownInstances
      { TreeAsset := tree.TreeAsset, RootNode := tree.RootNode, Path := path,
        InstanceMemory := [], FirstNodeInstance := -1 }).2 := by
    unfold ToUInt8
    omega
  constructor <;>
    simp [UBehaviorTreeComponent.PushInstance, UBehaviorTreeComponent.WriteActiveInstanceMemory,
      UBehaviorTreeComponent.PopInstance, List.getLast?_concat, hfit]

/-- The restore round trip, computed: the pop persists the buffer left by the
cleanup callbacks; the second push hands that buffer to the initialize-memory
callbacks in RestoreSubtree mode, and what they leave is the instance memory. -/
theorem restoreRoundTrip_eq (comp : UBehaviorTreeComponent) (tree : BTTreeTemplate)
    (path : List Nat) (firstMode : EBTMemoryInit) (written : List Nat)
    (hlen : written.length = tree.InstanceMemorySize)
    (hroom : comp.KnownInstances.length < 256) :
    comp.RestoreRoundTrip tree path firstMode written
      = some
          (ForEachNodeMemory (fun n => n.CleanupMemory EBTMemoryClear.StoreSubtree) tree.Nodes written,
           ForEachNodeMemory (fun n => n.InitializeMemory EBTMemoryInit.RestoreSubtree) tree.Nodes
             (ForEachNodeMemory (fun n => n.CleanupMemory EBTMemoryClear.StoreSubtree) tree.Nodes
               written)) := by
  have hsum : (tree.Nodes.map (fun n => n.InstanceMemorySize)).sum ≤ written.length := by
    rw [hlen]; exact Nat.le_refl _
  have hstoredLen := length_forEachNodeMemory
    (fun n => n.CleanupMemory EBTMemoryClear.StoreSubtree) tree.Nodes written hsum
  have hidx := indexOfInstanceId_updateInstanceId comp.KnownInstances
    { TreeAsset := tree.TreeAsset, RootNode := tree.RootNode, Path := path,
      InstanceMemory := [], FirstNodeInstance := -1 }
  obtain ⟨htop, hpop⟩ := popInstance_store_after_push comp tree path firstMode written hroom
  generalize UpdateInstanceId comp.KnownInstances
    { TreeAsset := tree.TreeAsset, RootNode := tree.RootNode, Path := path,
      InstanceMemory := [], FirstNodeInstance := -1 } = r at hidx htop hpop
  generalize hstored : ForEachNodeMemory (fun n => n.CleanupMemory EBTMemoryClear.StoreSubtree)
    tree.Nodes written = stored at hstoredLen hpop ⊢
  have hlt := indexOfInstanceId_lt _ _ _ hidx
  have hpers := persistedMemory_setPersistedMemory stored r.1 r.2 hlt
  have hidx2 := (indexOfInstanceId_setPersistedMemory _ stored r.1 r.2).trans hidx
  have hpush := pushInstance_restore comp.InstanceStack _ tree path _ hidx2
    (by rw [hpers, hstoredLen, hlen])
  rw [hpers] at hpush
  unfold UBehaviorTreeComponent.RestoreRoundTrip
  simp only [hpop]
  cases hlast : ((comp.PushInstance tree path firstMode).1.WriteActiveInstanceMemory
      written).InstanceStack.getLast? with
  | none => simp [hlast] at htop
  | some popped =>
    simp only [hlast, Option.map_some', Option.some.injEq] at htop
    cases hlast2 : ((UBehaviorTreeComponent.PushInstance
        { InstanceStack := comp.InstanceStack,
          KnownInstances := SetPersistedMemory r.1 r.2 stored }
        tree path EBTMemoryInit.RestoreSubtree).1.InstanceStack.getLast?) with
    | none => simp [hlast2] at hpush
    | some top =>
      simp only [hlast2, Option.map_some', Option.some.injEq] at hpush
      simp only [htop, hpers]
      rw [hlast2]
      simp only [hpush]

/-- C7: for every subtree, pushing it, popping it with StoreSubtree (the
instance buffer having its declared size) and pushing the same (asset, path)
again with RestoreSubtree yields an instance memory byte-identical to the
buffer persisted by the pop, which is the buffer the cleanup callbacks left.
The table of known identifiers holds fewer than 256 entries before the first
push, so that the index of the identifier fits the uint8 field
InstanceIdIndex. -/
theorem restoreRoundTrip_identical (comp : UBehaviorTreeComponent)
    (tree : BTTreeTemplate) (path : List Nat) (firstMode : EBTMemoryInit) (written : List Nat)
    (hlen : written.length = tree.InstanceMemorySize)
    (hroom : comp.KnownInstances.length < 256) :
    comp.RestoreRoundTrip tree path firstMode written
      = some
          (ForEachNodeMemory (fun n => n.CleanupMemory EBTMemoryClear.StoreSubtree) tree.Nodes written,
           ForEachNodeMemory (fun n => n.CleanupMemory EBTMemoryClear.StoreSubtree) tree.Nodes
             written) := by
  have hsum : (tree.Nodes.map (fun n => n.InstanceMemorySize)).sum ≤ written.length := by
    rw [hlen]; exact Nat.le_refl _
  have hstoredLen := length_forEachNodeMemory
    (fun n => n.CleanupMemory EBTMemoryClear.StoreSubtree) tree.Nodes written hsum
  rw [restoreRoundTrip_eq comp tree path firstMode written hlen hroom,
    forEachNodeMemory_of_preserving
      (fun n => n.InitializeMemory EBTMemoryInit.RestoreSubtree) tree.Nodes _
      (fun _ _ _ _ => rfl)
      (by rw [hstoredLen]; exact hsum)]

/-- Witness for C7: the keeping tree, pushed on an empty stack, with 7 left in
its byte before the pop: [7] is persisted and [7] is restored. -/
theorem restoreRoundTrip_identical_witness :
    UBehaviorTreeComponent.RestoreRoundTrip { InstanceStack := [], KnownInstances := [] }
        KeepingTree [] EBTMemoryInit.Initialize [7] = some ([7], [7]) :=
  restoreRoundTrip_identical { InstanceStack := [], KnownInstances := [] }
    KeepingTree [] EBTMemoryInit.Initialize [7] rfl (by decide)

/-! ## Theorems: the Log task -/

/-- A positive finite float is not <= 0.0f. -/
theorem lessEq_zero_of_pos (m : Nat) (hm : 0 < m) :
    float.LessEq (float.Finite false m) float.Zero = false := by
  simp only [float.LessEq, float.Zero, float.Exact]
  simp
  omega

/-- Subtracting a positive float from a greater one, the exact difference being
a float: the result is the exact difference. -/
theorem sub_of_representable (mx my : Nat) (hlt : my < mx)
    (hrep : float.Representable (mx - my) = true) :
    float.Sub (float.Finite false mx) (float.Finite false my) = float.Finite false (mx - my) := by
  simp only [float.Representable, Bool.and_eq_true, decide_eq_true_eq] at hrep
  obtain ⟨hround, hbound⟩ := hrep
  have hz : ((mx : Int) - (my : Int)).natAbs = mx - my := by omega
  have hne : ¬ ((mx : Int) - (my : Int) = 0) := by omega
  have hnn : ¬ ((mx : Int) - (my : Int) < 0) := by omega
  simp only [float.Sub, float.OfExact, float.Exact, hz, hround, hbound, hne, hnn, if_true,
    if_false, decide_False, Bool.false_eq_true]

/-- Subtracting from a non-negative finite float a float that is at least as
large: the result is <= 0.0f, whatever the rounding. -/
theorem sub_lessEq_zero (mx my : Nat) (hle : mx ≤ my) :
    float.LessEq (float.Sub (float.Finite false mx) (float.Finite false my)) float.Zero = true := by
  by_cases heq : mx = my
  · subst heq
    simp [float.Sub, float.OfExact, float.Exact, float.LessEq, float.Zero]
  · have hne : ¬ ((mx : Int) - (my : Int) = 0) := by omega
    have hneg : (mx : Int) - (my : Int) < 0 := by omega
    simp only [float.Sub, float.OfExact, float.Exact, hne, hneg, if_false, decide_True,
      Bool.false_eq_true]
    split
    · simp [float.LessEq, float.Zero, float.Exact]
    · simp [float.LessEq, float.Zero]

/-- With a positive finite ExecutionTime, ExecuteTask stores it, logs nothing
and reports InProgress. -/
theorem executeTask_of_pos (task : UTestBTTask_Log) (mem0 : FBTLogTaskMemory)
    (w0 : LogTaskWorld) (t : Nat) (hT : task.ExecutionTime = float.Finite false t) (ht : 0 < t) :
    task.ExecuteTask mem0 w0
      = (EBTNodeResult.InProgress, { RemainingWaitTime := float.Finite false t }, w0) := by
  simp [UTestBTTask_Log.ExecuteTask, hT, lessEq_zero_of_pos t ht]

/-- As long as the remaining time stays positive (k * d < T) and every
remaining time met is a float, the state after k ticks is: remaining time
T - k * d, nothing logged, nothing finished. -/
theorem runTicks_before (task : UTestBTTask_Log) (mem0 : FBTLogTaskMemory)
    (w0 : LogTaskWorld) (t δ : Nat) (hT : task.ExecutionTime = float.Finite false t)
    (hExact : ∀ k : Nat, k * δ < t → float.Representable (t - k * δ) = true) :
    ∀ k : Nat, k * δ < t →
      task.RunTicks mem0 w0 (float.Finite false δ) k
        = ({ RemainingWaitTime := float.Finite false (t - k * δ) }, w0) := by
  intro k
  induction k with
  | zero =>
    intro h0
    have ht : 0 < t := by omega
    simp [UTestBTTask_Log.RunTicks, UTestBTTask_Log.TickTimes,
      executeTask_of_pos task mem0 w0 t hT ht]
  | succ k ih =>
    intro hk
    have hmul : (k + 1) * δ = k * δ + δ := Nat.succ_mul k δ
    have hprev := ih (by omega)
    have hrep := hExact (k + 1) hk
    have hsub : t - (k + 1) * δ = t - k * δ - δ := by omega
    rw [hsub] at hrep
    have hstep := sub_of_representable (t - k * δ) δ (by omega) hrep
    have hpos := lessEq_zero_of_pos (t - k * δ - δ) (by omega)
    unfold UTestBTTask_Log.RunTicks at hprev ⊢
    simp only [UTestBTTask_Log.TickTimes, hprev, UTestBTTask_Log.TickTask, hstep, hpos, hsub,
      Bool.false_eq_true, if_false]

/-- On the first tick n that reaches the execution time, TickTask logs
LogIndex once and calls FinishLatentTask once with LogResult. -/
theorem runTicks_fire (task : UTestBTTask_Log) (mem0 : FBTLogTaskMemory)
    (w0 : LogTaskWorld) (t δ : Nat) (hT : task.ExecutionTime = float.Finite false t)
    (hExact : ∀ k : Nat, k * δ < t → float.Representable (t - k * δ) = true)
    (k : Nat) (hbefore : k * δ < t) (hge : t ≤ (k + 1) * δ) :
    (task.RunTicks mem0 w0 (float.Finite false δ) (k + 1)).2
      = { ExecutionLog := w0.ExecutionLog ++ [task.LogIndex],
          FinishedLatent := w0.FinishedLatent ++ [task.LogResult] } := by
  have hmul : (k + 1) * δ = k * δ + δ := Nat.succ_mul k δ
  have hprev := runTicks_before task mem0 w0 t δ hT hExact k hbefore
  have hfire := sub_lessEq_zero (t - k * δ) δ (by omega)
  unfold UTestBTTask_Log.RunTicks at hprev ⊢
  simp [UTestBTTask_Log.TickTimes, hprev, UTestBTTask_Log.TickTask, hfire,
    UTestBTTask_Log.FinishLatentTask, UTestBTTask_Log.LogExecution]

/-- A magnitude below 2^24 has no excess bits. -/
theorem excessBits_of_lt (fuel a : Nat) (h : a < 16777216) : float.ExcessBits fuel a = 0 := by
  cases fuel with
  | zero => rfl
  | succ f => simp [float.ExcessBits, h]

/-- The bound of the search does not matter once it suffices. -/
theorem excessBits_fuel (fuel : Nat) :
    ∀ fuel2 a : Nat, a < 16777216 * 2 ^ fuel → a < 16777216 * 2 ^ fuel2 →
      float.ExcessBits fuel a = float.ExcessBits fuel2 a := by
  induction fuel with
  | zero =>
    intro fuel2 a h1 _
    rw [excessBits_of_lt 0 a (by simpa using h1), excessBits_of_lt fuel2 a (by simpa using h1)]
  | succ f ih =>
    intro fuel2 a h1 h2
    by_cases hlt : a < 16777216
    · rw [excessBits_of_lt _ a hlt, excessBits_of_lt _ a hlt]
    · cases fuel2 with
      | zero => exact absurd (by simpa using h2) hlt
      | succ f2 =>
        have hp1 : 2 ^ (f + 1) = 2 ^ f * 2 := pow_succ 2 f
        have hp2 : 2 ^ (f2 + 1) = 2 ^ f2 * 2 := pow_succ 2 f2
        have hrec := ih f2 (a / 2) (by omega) (by omega)
        simp only [float.ExcessBits, hlt, if_false, hrec]

/-- Doubling a magnitude of at least 2^23 adds one excess bit. -/
theorem excessBits_two_mul (a : Nat) (h : 16777216 ≤ 2 * a) :
    float.ExcessBits (2 * a) (2 * a) = float.ExcessBits a a + 1 := by
  obtain ⟨f, hf⟩ : ∃ f, 2 * a = f + 1 := ⟨2 * a - 1, by omega⟩
  have hnot : ¬ 2 * a < 16777216 := by omega
  have hhalf : 2 * a / 2 = a := by omega
  have hlt1 : a < 2 ^ f := by
    calc a < 2 ^ a := Nat.lt_two_pow a
      _ ≤ 2 ^ f := Nat.pow_le_pow_right (by decide) (by omega)
  have hlt2 : a < 2 ^ a := Nat.lt_two_pow a
  have hfuel := excessBits_fuel f a a (by omega) (by omega)
  conv_lhs => rw [show float.ExcessBits (2 * a) (2 * a) = float.ExcessBits (f + 1) (2 * a) by rw [hf]]
  simp only [float.ExcessBits, hnot, if_false, hhalf, hfuel]

/-- Rounding leaves a magnitude alone exactly when its excess bits are zero. -/
theorem roundMagnitude_eq_iff (a : Nat) :
    float.RoundMagnitude a = a ↔ 2 ^ float.ExcessBits a a ∣ a := by
  constructor
  · intro h
    unfold float.RoundMagnitude at h
    simp only at h
    split at h
    · exact Dvd.intro_left _ h
    · exact Dvd.intro_left _ h
  · intro h
    have hr : a % 2 ^ float.ExcessBits a a = 0 := Nat.mod_eq_zero_of_dvd h
    have hpos : 0 < 2 ^ float.ExcessBits a a := Nat.pow_pos (by decide)
    unfold float.RoundMagnitude
    simp only [hr]
    rw [if_neg (by omega)]
    exact Nat.div_mul_cancel h

/-- The double of a float magnitude is one, unless it reaches 2^128. -/
theorem representable_two_mul (a : Nat) (h : float.Representable a = true)
    (hb : 2 * a < 2 ^ 128 * 2 ^ 149) : float.Representable (2 * a) = true := by
  simp only [float.Representable, Bool.and_eq_true, decide_eq_true_eq] at h ⊢
  refine ⟨?_, hb⟩
  rw [roundMagnitude_eq_iff] at h ⊢
  by_cases hsmall : 2 * a < 16777216
  · rw [excessBits_of_lt _ _ hsmall]
    simp
  · rw [excessBits_two_mul a (by omega), pow_succ, Nat.mul_comm 2 a]
    exact Nat.mul_dvd_mul h.1 (dvd_refl 2)

/-- When T = 3 * d and both are floats, every remaining time met before the
completion (3 * d, 2 * d, d) is a float. -/
theorem representable_remaining_of_three (δ : Nat) (hδ : 0 < δ)
    (hrepT : float.Representable (3 * δ) = true) (hrepD : float.Representable δ = true) :
    ∀ k : Nat, k * δ < 3 * δ → float.Representable (3 * δ - k * δ) = true := by
  intro k hk
  have hk3 : k < 3 := Nat.lt_of_mul_lt_mul_right hk
  have hbound : 3 * δ < 2 ^ 128 * 2 ^ 149 := by
    simp only [float.Representable, Bool.and_eq_true, decide_eq_true_eq] at hrepT
    exact hrepT.2
  have h2 := representable_two_mul δ hrepD (by omega)
  interval_cases k
  · simpa using hrepT
  · rw [show 3 * δ - 1 * δ = 2 * δ by omega]
    exact h2
  · rw [show 3 * δ - 2 * δ = δ by omega]
    exact hrepD

/-- C10: a Log task with ExecutionTime T > 0 (T = t units of 2^-149) is ticked
with a constant DeltaSeconds d > 0 (d = δ units). ExecuteTask returns
InProgress and logs nothing. In exact arithmetic, that is when every remaining
time T - k * d that is still positive is a float, so that no subtraction
rounds: there is a least positive n with n * d >= T, ticks 1..n-1 neither log
nor finish, and tick n logs LogIndex and calls FinishLatentTask for the first
time. For T = 3 * d, T and d being floats, nothing completes on ticks 1 and 2
and the completion fires on tick 3. -/
theorem logTask_latent_completion (task : UTestBTTask_Log) (mem0 : FBTLogTaskMemory)
    (w0 : LogTaskWorld) (t δ : Nat) (hT : task.ExecutionTime = float.Finite false t)
    (ht : 0 < t) (hδ : 0 < δ) :
    (task.ExecuteTask mem0 w0).1 = EBTNodeResult.InProgress ∧
    (task.ExecuteTask mem0 w0).2.2 = w0 ∧
    ((∀ k : Nat, k * δ < t → float.Representable (t - k * δ) = true) →
      ∃ n : Nat, 0 < n ∧ t ≤ n * δ ∧
        (∀ m : Nat, 0 < m → t ≤ m * δ → n ≤ m) ∧
        (∀ k : Nat, k < n → (task.RunTicks mem0 w0 (float.Finite false δ) k).2 = w0) ∧
        (task.RunTicks mem0 w0 (float.Finite false δ) n).2
          = { ExecutionLog := w0.ExecutionLog ++ [task.LogIndex],
              FinishedLatent := w0.FinishedLatent ++ [task.LogResult] }) ∧
    (t = 3 * δ → float.Representable t = true → float.Representable δ = true →
      (task.RunTicks mem0 w0 (float.Finite false δ) 1).2 = w0 ∧
      (task.RunTicks mem0 w0 (float.Finite false δ) 2).2 = w0 ∧
      (task.RunTicks mem0 w0 (float.Finite false δ) 3).2
        = { ExecutionLog := w0.ExecutionLog ++ [task.LogIndex],
            FinishedLatent := w0.FinishedLatent ++ [task.LogResult] }) := by
  refine ⟨?_, ?_, ?_, ?_⟩
  · rw [executeTask_of_pos task mem0 w0 t hT ht]
  · rw [executeTask_of_pos task mem0 w0 t hT ht]
  · intro hExact
    have hex : ∃ m : Nat, t ≤ m * δ := ⟨t, Nat.le_mul_of_pos_right t hδ⟩
    have hspec : t ≤ Nat.find hex * δ := Nat.find_spec hex
    have hbelow : ∀ k : Nat, k < Nat.find hex → k * δ < t := fun k hk =>
      Nat.lt_of_not_le (Nat.find_min hex hk)
    have hpos : 0 < Nat.find hex := by
      rcases Nat.eq_zero_or_pos (Nat.find hex) with h0 | h0
      · rw [h0] at hspec
        omega
      · exact h0
    refine ⟨Nat.find hex, hpos, hspec, fun m _ hm => Nat.find_min' hex hm, ?_, ?_⟩
    · intro k hk
      rw [runTicks_before task mem0 w0 t δ hT hExact k (hbelow k hk)]
    · obtain ⟨k, hk⟩ : ∃ k, Nat.find hex = k + 1 := ⟨Nat.find hex - 1, by omega⟩
      rw [hk] at hspec ⊢
      exact runTicks_fire task mem0 w0 t δ hT hExact k (hbelow k (by omega)) hspec
  · intro h3 hrepT hrepD
    subst h3
    have hExact := representable_remaining_of_three δ hδ hrepT hrepD
    refine ⟨?_, ?_, ?_⟩
    · rw [runTicks_before task mem0 w0 (3 * δ) δ hT hExact 1 (by omega)]
    · rw [runTicks_before task mem0 w0 (3 * δ) δ hT hExact 2 (by omega)]
    · exact runTicks_fire task mem0 w0 (3 * δ) δ hT hExact 2 (by omega) (by omega)

set_option maxRecDepth 100000 in
/-- Witness for C10: the default ExecutionTime 5.0f (5 * 2^149 units) with
DeltaSeconds 2.0f, a task that logs index 4 and reports Succeeded. The
remaining times 5.0f, 3.0f and 1.0f are floats, and the completion fires on
the least tick n with n * 2 >= 5. -/
theorem logTask_latent_completion_witness :
    (0 < 5 * 2 ^ 149 ∧ 0 < 2 * 2 ^ 149) ∧
    ∃ n : Nat, 0 < n ∧ 5 * 2 ^ 149 ≤ n * (2 * 2 ^ 149) ∧
      (∀ m : Nat, 0 < m → 5 * 2 ^ 149 ≤ m * (2 * 2 ^ 149) → n ≤ m) ∧
      (∀ k : Nat, k < n →
        ((UTestBTTask_Log.mk (float.Finite false (5 * 2 ^ 149)) 4 EBTNodeResult.Succeeded).RunTicks
          ⟨float.Zero⟩ ⟨[], []⟩ (float.Finite false (2 * 2 ^ 149)) k).2 = ⟨[], []⟩) ∧
      ((UTestBTTask_Log.mk (float.Finite false (5 * 2 ^ 149)) 4 EBTNodeResult.Succeeded).RunTicks
        ⟨float.Zero⟩ ⟨[], []⟩ (float.Finite false (2 * 2 ^ 149)) n).2
          = ⟨[4], [EBTNodeResult.Succeeded]⟩ :=
  ⟨⟨by decide, by decide⟩,
    (logTask_latent_completion
      (UTestBTTask_Log.mk (float.Finite false (5 * 2 ^ 149)) 4 EBTNodeResult.Succeeded)
      ⟨float.Zero⟩ ⟨[], []⟩ (5 * 2 ^ 149) (2 * 2 ^ 149) rfl (by decide) (by decide)).2.2.1
      (by
        intro k hk
        have hk3 : k < 3 := by omega
        interval_cases k <;> decide)⟩

set_option maxRecDepth 100000 in
/-- The subtraction rounds to nearest, ties to even: 33554432.0f - 1.0f is
33554432.0f (2^25 - 1 needs 25 significant bits and lies halfway between the
floats 2^25 - 2 and 2^25). -/
theorem sub_ties_to_even :
    float.Sub (float.Finite false (2 ^ 25 * 2 ^ 149)) (float.Finite false (2 ^ 149))
      = float.Finite false (2 ^ 25 * 2 ^ 149) := by
  decide

set_option maxRecDepth 100000 in
/-- Outside exact arithmetic the rounding of the subtractions can move the
completing tick: with the default ExecutionTime 5.0f and DeltaSeconds 0.1f
(13421773 * 2^-27), 50 * d >= T holds for the exact values, yet nothing
completes on tick 50 and the completion fires on tick 51. -/
theorem runTicks_rounded_example :
    5 * 2 ^ 149 ≤ 50 * (13421773 * 2 ^ 122) ∧
    ((UTestBTTask_Log.mk (float.Finite false (5 * 2 ^ 149)) 0 EBTNodeResult.Succeeded).RunTicks
      ⟨float.Zero⟩ ⟨[], []⟩ (float.Finite false (13421773 * 2 ^ 122)) 50).2 = ⟨[], []⟩ ∧
    ((UTestBTTask_Log.mk (float.Finite false (5 * 2 ^ 149)) 0 EBTNodeResult.Succeeded).RunTicks
      ⟨float.Zero⟩ ⟨[], []⟩ (float.Finite false (13421773 * 2 ^ 122)) 51).2
        = ⟨[0], [EBTNodeResult.Succeeded]⟩ :=
  ⟨by decide, rfl, rfl⟩

/-- C11: ExecuteTask of the Log task stores ExecutionTime in RemainingWaitTime;
when ExecutionTime <= 0 it appends LogIndex to the execution log once and
returns LogResult; otherwise it appends nothing and returns InProgress. It
never calls FinishLatentTask. -/
theorem logTask_executeTask (task : UTestBTTask_Log) (mem0 : FBTLogTaskMemory)
    (w0 : LogTaskWorld) :
    (task.ExecuteTask mem0 w0).2.1.RemainingWaitTime = task.ExecutionTime ∧
    (task.ExecuteTask mem0 w0).2.2.FinishedLatent = w0.FinishedLatent ∧
    (float.LessEq task.ExecutionTime float.Zero = true →
      (task.ExecuteTask mem0 w0).1 = task.LogResult ∧
      (task.ExecuteTask mem0 w0).2.2.ExecutionLog = w0.ExecutionLog ++ [task.LogIndex]) ∧
    (¬ float.LessEq task.ExecutionTime float.Zero = true →
      (task.ExecuteTask mem0 w0).1 = EBTNodeResult.InProgress ∧
      (task.ExecuteTask mem0 w0).2.2.ExecutionLog = w0.ExecutionLog) := by
  refine ⟨?_, ?_, ?_, ?_⟩
  · unfold UTestBTTask_Log.ExecuteTask
    split <;> rfl
  · unfold UTestBTTask_Log.ExecuteTask
    split <;> rfl
  · intro h
    simp [UTestBTTask_Log.ExecuteTask, h, UTestBTTask_Log.LogExecution]
  · intro h
    simp [UTestBTTask_Log.ExecuteTask, h]

/-- C12: TickTask of the Log task subtracts DeltaSeconds from
RemainingWaitTime (the float subtraction); it appends LogIndex to the
execution log and calls FinishLatentTask with LogResult exactly when the new
RemainingWaitTime is <= 0, and otherwise leaves the log and the finished
results as they are. -/
theorem logTask_tickTask (task : UTestBTTask_Log) (mem : FBTLogTaskMemory)
    (w : LogTaskWorld) (d : float) :
    (task.TickTask mem w d).1.RemainingWaitTime = float.Sub mem.RemainingWaitTime d ∧
    (float.LessEq (task.TickTask mem w d).1.RemainingWaitTime float.Zero = true →
      (task.TickTask mem w d).2.ExecutionLog = w.ExecutionLog ++ [task.LogIndex] ∧
      (task.TickTask mem w d).2.FinishedLatent = w.FinishedLatent ++ [task.LogResult]) ∧
    (¬ float.LessEq (task.TickTask mem w d).1.RemainingWaitTime float.Zero = true →
      (task.TickTask mem w d).2.ExecutionLog = w.ExecutionLog ∧
      (task.TickTask mem w d).2.FinishedLatent = w.FinishedLatent) ∧
    ((task.TickTask mem w d).2.FinishedLatent ≠ w.FinishedLatent ↔
      float.LessEq (task.TickTask mem w d).1.RemainingWaitTime float.Zero = true) ∧
    ((task.TickTask mem w d).2.ExecutionLog ≠ w.ExecutionLog ↔
      float.LessEq (task.TickTask mem w d).1.RemainingWaitTime float.Zero = true) := by
  by_cases h : float.LessEq (float.Sub mem.RemainingWaitTime d) float.Zero = true
  · simp [UTestBTTask_Log.TickTask, h, UTestBTTask_Log.LogExecution,
      UTestBTTask_Log.FinishLatentTask]
  · simp [UTestBTTask_Log.TickTask, h]

/-! ## Theorems: applying pending updates, search ids -/

/-- Every update belongs to exactly one of the three groups: regular Remove,
regular Add, flagged bPostUpdate. -/
theorem update_group_cases (u : FBehaviorTreeSearchUpdate) :
    (u.IsRegularRemove = true ∧ u.IsRegularAdd = false ∧ u.bPostUpdate = false) ∨
    (u.IsRegularRemove = false ∧ u.IsRegularAdd = true ∧ u.bPostUpdate = false) ∨
    (u.IsRegularRemove = false ∧ u.IsRegularAdd = false ∧ u.bPostUpdate = true) := by
  unfold FBehaviorTreeSearchUpdate.IsRegularRemove FBehaviorTreeSearchUpdate.IsRegularAdd
  cases u.bPostUpdate <;> by_cases h : u.Mode = EBTNodeUpdateMode.Remove <;> simp [h]

/-- Applying the pending updates applies each queued update exactly once. -/
theorem applyPendingUpdates_perm (PendingUpdates : List FBehaviorTreeSearchUpdate) :
    (ApplyPendingUpdates PendingUpdates).Perm PendingUpdates := by
  unfold ApplyPendingUpdates
  induction PendingUpdates with
  | nil => simp
  | cons u l ih =>
    rcases update_group_cases u with ⟨h1, h2, h3⟩ | ⟨h1, h2, h3⟩ | ⟨h1, h2, h3⟩
    · simp only [List.filter_cons, h1, h2, h3, if_true, Bool.false_eq_true, if_false,
        List.cons_append]
      exact List.Perm.cons u ih
    · simp only [List.filter_cons, h1, h2, h3, if_true, Bool.false_eq_true, if_false,
        List.cons_append]
      exact List.perm_middle.trans (List.Perm.cons u ih)
    · simp only [List.filter_cons, h1, h2, h3, if_true, Bool.false_eq_true, if_false]
      rw [← List.append_assoc]
      refine List.perm_middle.trans (List.Perm.cons u ?_)
      rw [List.append_assoc]
      exact ih

/-- C13: when the pending updates are applied, every queued update is applied
once; among the updates not flagged bPostUpdate no Add (or AddForLowerPri) is
applied before a Remove, and no update flagged bPostUpdate is applied before
an update that is not flagged. -/
theorem applyPendingUpdates_order (PendingUpdates : List FBehaviorTreeSearchUpdate) :
    (ApplyPendingUpdates PendingUpdates).Perm PendingUpdates ∧
    (ApplyPendingUpdates PendingUpdates).Pairwise
      (fun earlier later =>
        ¬ (earlier.bPostUpdate = false ∧ earlier.Mode ≠ EBTNodeUpdateMode.Remove ∧
            later.bPostUpdate = false ∧ later.Mode = EBTNodeUpdateMode.Remove) ∧
        ¬ (earlier.bPostUpdate = true ∧ later.bPostUpdate = false)) := by
  refine ⟨applyPendingUpdates_perm PendingUpdates, ?_⟩
  unfold ApplyPendingUpdates
  have hR : ∀ a ∈ PendingUpdates.filter (fun u => u.IsRegularRemove),
      a.bPostUpdate = false ∧ a.Mode = EBTNodeUpdateMode.Remove := by
    intro a ha
    have := (List.mem_filter.mp ha).2
    simpa [FBehaviorTreeSearchUpdate.IsRegularRemove] using this
  have hA : ∀ a ∈ PendingUpdates.filter (fun u => u.IsRegularAdd),
      a.bPostUpdate = false ∧ a.Mode ≠ EBTNodeUpdateMode.Remove := by
    intro a ha
    have := (List.mem_filter.mp ha).2
    simpa [FBehaviorTreeSearchUpdate.IsRegularAdd] using this
  have hP : ∀ a ∈ PendingUpdates.filter (fun u => u.bPostUpdate), a.bPostUpdate = true := by
    intro a ha
    exact (List.mem_filter.mp ha).2
  rw [List.pairwise_append, List.pairwise_append]
  refine ⟨?_, ⟨?_, ?_, ?_⟩, ?_⟩
  · apply List.pairwise_of_forall_mem_list
    intro a ha b hb
    have h1 := hR a ha
    constructor
    · rintro ⟨_, h, _⟩; exact h h1.2
    · rintro ⟨h, _⟩; rw [h1.1] at h; exact Bool.noConfusion h
  · apply List.pairwise_of_forall_mem_list
    intro a ha b hb
    have h1 := hA a ha
    have h2 := hA b hb
    constructor
    · rintro ⟨_, _, _, h⟩; exact h2.2 h
    · rintro ⟨h, _⟩; rw [h1.1] at h; exact Bool.noConfusion h
  · apply List.pairwise_of_forall_mem_list
    intro a ha b hb
    have h2 := hP b hb
    constructor
    · rintro ⟨_, _, h, _⟩; rw [h2] at h; exact Bool.noConfusion h
    · rintro ⟨_, h⟩; rw [h2] at h; exact Bool.noConfusion h
  · intro a ha b hb
    have h1 := hA a ha
    have h2 := hP b hb
    constructor
    · rintro ⟨_, _, h, _⟩; rw [h2] at h; exact Bool.noConfusion h
    · rintro ⟨h, _⟩; rw [h1.1] at h; exact Bool.noConfusion h
  · intro a ha b hb
    have h1 := hR a ha
    constructor
    · rintro ⟨_, h, _⟩; exact h h1.2
    · rintro ⟨h, _⟩; rw [h1.1] at h; exact Bool.noConfusion h

/-- WrapInt32 leaves a value of the int32 range as it is. -/
theorem wrapInt32_of_range (v : Int) (hlo : -2147483648 ≤ v) (hhi : v < 2147483648) :
    WrapInt32 v = v := by
  unfold WrapInt32
  omega

/-- The calls of a run assign the consecutive values of the counter: every id
is at least the value the counter had before the first call, and a later call
gets a greater id. -/
theorem assignSearchIds_increasing (sds : List FBehaviorTreeSearchData) :
    ∀ (c0 : Int) (out : List FBehaviorTreeSearchData × Int),
      FBehaviorTreeSearchData.AssignSearchIds c0 sds = some out →
      out.1.length = sds.length ∧
      (∀ sd ∈ out.1, c0 ≤ sd.SearchId) ∧
      out.1.Pairwise (fun earlier later => earlier.SearchId < later.SearchId) := by
  induction sds with
  | nil =>
    intro c0 out h
    simp only [FBehaviorTreeSearchData.AssignSearchIds, Option.some.injEq] at h
    subst h
    simp
  | cons sd rest ih =>
    intro c0 out h
    unfold FBehaviorTreeSearchData.AssignSearchIds at h
    by_cases hc : c0 + 1 ≤ 2147483647
    · simp only [FBehaviorTreeSearchData.AssignSearchId, hc, if_true] at h
      cases hrest : FBehaviorTreeSearchData.AssignSearchIds (c0 + 1) rest with
      | none => simp [hrest] at h
      | some rs =>
        simp only [hrest, Option.some.injEq] at h
        subst h
        obtain ⟨hlen, hge, hpw⟩ := ih (c0 + 1) rs hrest
        refine ⟨by simp [hlen], ?_, ?_⟩
        · intro x hx
          rcases List.mem_cons.mp hx with hx | hx
          · rw [hx]
          · have := hge x hx
            omega
        · rw [List.pairwise_cons]
          refine ⟨?_, hpw⟩
          intro x hx
          have := hge x hx
          show c0 < x.SearchId
          omega
    · simp [FBehaviorTreeSearchData.AssignSearchId, hc] at h

/-- A run of calls has a result as long as the counter does not pass the
largest int32. -/
theorem assignSearchIds_isSome (sds : List FBehaviorTreeSearchData) :
    ∀ c0 : Int, c0 + sds.length ≤ 2147483647 →
      (FBehaviorTreeSearchData.AssignSearchIds c0 sds).isSome = true := by
  induction sds with
  | nil => intro c0 _; rfl
  | cons sd rest ih =>
    intro c0 h
    simp only [List.length_cons] at h
    push_cast at h
    have hc : c0 + 1 ≤ 2147483647 := by omega
    have hrest := ih (c0 + 1) (by omega)
    obtain ⟨rs, hrs⟩ := Option.isSome_iff_exists.mp hrest
    simp [FBehaviorTreeSearchData.AssignSearchIds, FBehaviorTreeSearchData.AssignSearchId, hc, hrs]

/-- C14: search ids are monotonically increasing. In every run of calls of
AssignSearchId (the global int32 counter NextSearchId starting at c0), the
SearchId assigned by a later call is strictly greater than the SearchId
assigned by an earlier call; the run has a result, one search data per call,
as long as the counter does not pass the largest int32. -/
theorem assignSearchId_strictly_increasing (sds : List FBehaviorTreeSearchData) (c0 : Int) :
    (c0 + sds.length ≤ 2147483647 →
      (FBehaviorTreeSearchData.AssignSearchIds c0 sds).isSome = true) ∧
    (∀ out : List FBehaviorTreeSearchData × Int,
      FBehaviorTreeSearchData.AssignSearchIds c0 sds = some out →
      out.1.length = sds.length ∧
      out.1.Pairwise (fun earlier later => earlier.SearchId < later.SearchId)) :=
  ⟨assignSearchIds_isSome sds c0,
    fun out h => ⟨(assignSearchIds_increasing sds c0 out h).1,
      (assignSearchIds_increasing sds c0 out h).2.2⟩⟩

/-- Witness for C14: three calls starting from NextSearchId = 1 assign the ids
1, 2 and 3. -/
theorem assignSearchId_strictly_increasing_witness :
    FBehaviorTreeSearchData.AssignSearchIds 1
        [⟨1, [], ⟨65535, 65535⟩, ⟨65535, 65535⟩, 0⟩, ⟨1, [], ⟨65535, 65535⟩, ⟨65535, 65535⟩, 0⟩,
          ⟨1, [], ⟨65535, 65535⟩, ⟨65535, 65535⟩, 0⟩]
      = some ([⟨1, [], ⟨65535, 65535⟩, ⟨65535, 65535⟩, 1⟩,
          ⟨1, [], ⟨65535, 65535⟩, ⟨65535, 65535⟩, 2⟩,
          ⟨1, [], ⟨65535, 65535⟩, ⟨65535, 65535⟩, 3⟩], 4) ∧
    ([⟨1, [], ⟨65535, 65535⟩, ⟨65535, 65535⟩, 1⟩, ⟨1, [], ⟨65535, 65535⟩, ⟨65535, 65535⟩, 2⟩,
        ⟨1, [], ⟨65535, 65535⟩, ⟨65535, 65535⟩, 3⟩] : List FBehaviorTreeSearchData).Pairwise
      (fun earlier later => earlier.SearchId < later.SearchId) :=
  ⟨by decide,
    ((assignSearchId_strictly_increasing
      [⟨1, [], ⟨65535, 65535⟩, ⟨65535, 65535⟩, 0⟩, ⟨1, [], ⟨65535, 65535⟩, ⟨65535, 65535⟩, 0⟩,
        ⟨1, [], ⟨65535, 65535⟩, ⟨65535, 65535⟩, 0⟩] 1).2
      ([⟨1, [], ⟨65535, 65535⟩, ⟨65535, 65535⟩, 1⟩, ⟨1, [], ⟨65535, 65535⟩, ⟨65535, 65535⟩, 2⟩,
        ⟨1, [], ⟨65535, 65535⟩, ⟨65535, 65535⟩, 3⟩], 4) (by decide)).2⟩

/-! ## Theorems: construction and memory statistics of a subtree instance -/

/-- C15: for every memory size n >= 0, the instance constructed by
FBehaviorTreeInstance(n) has an InstanceMemory buffer of exactly n bytes, all
of them zero. -/
theorem ofMemorySize_zeroed (n : Int) (hn : 0 ≤ n) (Uninitialized : FBehaviorTreeInstance) :
    ((FBehaviorTreeInstance.ofMemorySize n Uninitialized).InstanceMemory.length : Int) = n ∧
    (∀ b ∈ (FBehaviorTreeInstance.ofMemorySize n Uninitialized).InstanceMemory, b = 0) ∧
    (FBehaviorTreeInstance.ofMemorySize n Uninitialized).InstanceMemory
      = List.replicate n.toNat 0 := by
  refine ⟨?_, ?_, ?_⟩
  · simp [FBehaviorTreeInstance.ofMemorySize, TArrayAddZeroed, Int.toNat_of_nonneg hn]
  · intro b hb
    simp only [FBehaviorTreeInstance.ofMemorySize, TArrayAddZeroed, List.nil_append] at hb
    exact (List.mem_replicate.mp hb).2
  · simp [FBehaviorTreeInstance.ofMemorySize, TArrayAddZeroed]

/-- Witness for C15: a memory size of 4 gives the buffer [0, 0, 0, 0]. -/
theorem ofMemorySize_zeroed_witness :
    (FBehaviorTreeInstance.ofMemorySize 4
        ⟨0, 0, [], [], [], 0, EBTActiveNode.Composite⟩).InstanceMemory = [0, 0, 0, 0] :=
  (ofMemorySize_zeroed 4 (by decide) ⟨0, 0, [], [], [], 0, EBTActiveNode.Composite⟩).2.2

/-- C16 (amended): in a build with STATS, GetAllocatedSize() is the struct's
own size plus the allocated sizes of ActiveAuxNodes, ParallelTasks and
InstanceMemory, as a uint32 (the exact sum whenever the sum is below 2^32), and
IncMemoryStats / DecMemoryStats add and subtract exactly GetAllocatedSize(). In
a build without STATS, GetAllocatedSize() is 0 and IncMemoryStats and
DecMemoryStats leave the stat as it is. -/
theorem getAllocatedSize_stats_gate (a : FInstanceAllocation) (Stat : Int) :
    (FBehaviorTreeInstance.GetAllocatedSize true a
        = (a.SizeOfThis + a.ActiveAuxNodesAllocated + a.ParallelTasksAllocated +
            a.InstanceMemoryAllocated) % 4294967296 ∧
      (a.SizeOfThis + a.ActiveAuxNodesAllocated + a.ParallelTasksAllocated +
          a.InstanceMemoryAllocated < 4294967296 →
        FBehaviorTreeInstance.GetAllocatedSize true a
          = a.SizeOfThis + a.ActiveAuxNodesAllocated + a.ParallelTasksAllocated +
              a.InstanceMemoryAllocated) ∧
      FBehaviorTreeInstance.IncMemoryStats true a Stat
        = Stat + (FBehaviorTreeInstance.GetAllocatedSize true a : Int) ∧
      FBehaviorTreeInstance.DecMemoryStats true a Stat
        = Stat - (FBehaviorTreeInstance.GetAllocatedSize true a : Int)) ∧
    (FBehaviorTreeInstance.GetAllocatedSize false a = 0 ∧
      FBehaviorTreeInstance.IncMemoryStats false a Stat = Stat ∧
      FBehaviorTreeInstance.DecMemoryStats false a Stat = Stat) := by
  refine ⟨⟨?_, ?_, ?_, ?_⟩, ?_, ?_, ?_⟩
  · simp [FBehaviorTreeInstance.GetAllocatedSize]
  · intro h
    simp [FBehaviorTreeInstance.GetAllocatedSize, Nat.mod_eq_of_lt h]
  · simp [FBehaviorTreeInstance.IncMemoryStats, INC_MEMORY_STAT_BY]
  · simp [FBehaviorTreeInstance.DecMemoryStats, DEC_MEMORY_STAT_BY]
  · rfl
  · rfl
  · rfl

/-- C16 (counterexample): in a build without STATS, GetAllocatedSize() of an
instance whose struct takes 80 bytes and whose arrays allocated 16, 32 and 64
bytes is 0, not 192, and IncMemoryStats and DecMemoryStats leave the stat at
1000. -/
theorem getAllocatedSize_without_stats :
    FBehaviorTreeInstance.GetAllocatedSize false ⟨80, 16, 32, 64⟩ = 0 ∧
    FBehaviorTreeInstance.GetAllocatedSize false ⟨80, 16, 32, 64⟩ ≠ 80 + 16 + 32 + 64 ∧
    FBehaviorTreeInstance.IncMemoryStats false ⟨80, 16, 32, 64⟩ 1000 = 1000 ∧
    FBehaviorTreeInstance.DecMemoryStats false ⟨80, 16, 32, 64⟩ 1000 = 1000 := by
  decide

/-! ## Theorems: blackboard keys -/

/-- C17: a blackboard key handle is an 8-bit unsigned value (every FKey(v) is
below 256); FBlackboard::InvalidKey = FKey(-1) is 255; a default-constructed
FBlackboardKeySelector reports GetSelectedKeyID() = InvalidKey. -/
theorem invalidKey_eq_255 :
    (∀ v : Int, FBlackboard.FKey v < 256) ∧
    FBlackboard.InvalidKey = 255 ∧
    (∀ b : Bool, (FBlackboardKeySelector.ctor b).GetSelectedKeyID = FBlackboard.InvalidKey) ∧
    (∀ b : Bool, (FBlackboardKeySelector.ctor b).GetSelectedKeyID = 255) := by
  refine ⟨?_, ?_, ?_, ?_⟩
  · intro v
    unfold FBlackboard.FKey
    omega
  · decide
  · intro b
    rfl
  · intro b
    cases b <;> decide

/-! ## Theorems: render commands -/

/-- C18 (amended): in a build without UE_SERVER, whenever GIsThreadedRendering
is false and the caller is in the game thread, a rendering command issued
through ENQUEUE_UNIQUE_RENDER_COMMAND or one of its one- to four-parameter
variants is executed in place by the caller (its DoTask runs) and no task is
created for the rendering thread. -/
theorem enqueue_executes_in_place (UE_SERVER GIsThreadedRendering IsInGameThread : Bool)
    (TypeName p1 p2 p3 p4 : Nat) (w : FRenderCommandWorld)
    (hServer : UE_SERVER = false) (hThreaded : GIsThreadedRendering = false)
    (hGame : IsInGameThread = true) :
    ENQUEUE_UNIQUE_RENDER_COMMAND UE_SERVER GIsThreadedRendering IsInGameThread TypeName w
      = { DispatchedTasks := w.DispatchedTasks,
          ExecutedInPlace := w.ExecutedInPlace ++ [⟨TypeName, []⟩] } ∧
    ENQUEUE_UNIQUE_RENDER_COMMAND_ONEPARAMETER UE_SERVER GIsThreadedRendering IsInGameThread
        TypeName p1 w
      = { DispatchedTasks := w.DispatchedTasks,
          ExecutedInPlace := w.ExecutedInPlace ++ [⟨TypeName, [p1]⟩] } ∧
    ENQUEUE_UNIQUE_RENDER_COMMAND_TWOPARAMETER UE_SERVER GIsThreadedRendering IsInGameThread
        TypeName p1 p2 w
      = { DispatchedTasks := w.DispatchedTasks,
          ExecutedInPlace := w.ExecutedInPlace ++ [⟨TypeName, [p1, p2]⟩] } ∧
    ENQUEUE_UNIQUE_RENDER_COMMAND_THREEPARAMETER UE_SERVER GIsThreadedRendering IsInGameThread
        TypeName p1 p2 p3 w
      = { DispatchedTasks := w.DispatchedTasks,
          ExecutedInPlace := w.ExecutedInPlace ++ [⟨TypeName, [p1, p2, p3]⟩] } ∧
    ENQUEUE_UNIQUE_RENDER_COMMAND_FOURPARAMETER UE_SERVER GIsThreadedRendering IsInGameThread
        TypeName p1 p2 p3 p4 w
      = { DispatchedTasks := w.DispatchedTasks,
          ExecutedInPlace := w.ExecutedInPlace ++ [⟨TypeName, [p1, p2, p3, p4]⟩] } := by
  subst hServer hThreaded hGame
  refine ⟨rfl, rfl, rfl, rfl, rfl⟩

/-- Witness for C18 (amended): command 7 with no parameter, issued from the
game thread without a rendering thread, is run in place. -/
theorem enqueue_executes_in_place_witness :
    ENQUEUE_UNIQUE_RENDER_COMMAND false false true 7 ⟨[], []⟩
      = { DispatchedTasks := [], ExecutedInPlace := [⟨7, []⟩] } :=
  (enqueue_executes_in_place false false true 7 0 0 0 0 ⟨[], []⟩ rfl rfl rfl).1

/-- C18 (counterexample): with GIsThreadedRendering false, a command issued
from a thread other than the game thread is dispatched as a task and not run
in place; and in a UE_SERVER build a command issued from the game thread is
neither run nor dispatched. -/
theorem enqueue_not_in_place :
    ENQUEUE_UNIQUE_RENDER_COMMAND false false false 7 ⟨[], []⟩
      = { DispatchedTasks := [⟨7, []⟩], ExecutedInPlace := [] } ∧
    ENQUEUE_UNIQUE_RENDER_COMMAND_ONEPARAMETER false false false 7 1 ⟨[], []⟩
      = { DispatchedTasks := [⟨7, [1]⟩], ExecutedInPlace := [] } ∧
    ENQUEUE_UNIQUE_RENDER_COMMAND true false true 7 ⟨[], []⟩
      = { DispatchedTasks := [], ExecutedInPlace := [] } := by
  decide

/-! ## Theorems: packing a property block -/

/-- Reading a uint32 as int32 and back gives the same 32-bit word. -/
theorem toUInt32_toInt32 (w : Nat) (hw : w < 4294967296) : ToUInt32 (ToInt32 w) = w := by
  unfold ToUInt32 ToInt32 WrapInt32
  omega

/-- Reading an int32 as uint32 and back gives the same value. -/
theorem toInt32_toUInt32 (v : Int) (hlo : -2147483648 ≤ v) (hhi : v < 2147483648) :
    ToInt32 (ToUInt32 v) = v := by
  unfold ToUInt32 ToInt32 WrapInt32
  omega

/-- The 32-bit pattern of an int32 is below 2^32. -/
theorem toUInt32_lt (v : Int) : ToUInt32 v < 4294967296 := by
  unfold ToUInt32
  omega

/-- The word built by Pack from two 16-bit halves: high half times 2^16 plus
low half. -/
theorem pack_word (hi lo : Nat) (hhi : hi < 65536) (hlo : lo < 65536) :
    ((hi <<< 16) % 4294967296) ||| lo = hi * 65536 + lo := by
  have h1 : hi <<< 16 = 65536 * hi := by
    rw [Nat.shiftLeft_eq]
    omega
  have h2 : (65536 * hi) % 4294967296 = 65536 * hi := Nat.mod_eq_of_lt (by omega)
  have h3 := Nat.mul_add_lt_is_or (show lo < 2 ^ 16 by omega) hi
  rw [h1, h2]
  have h4 : (2 : Nat) ^ 16 = 65536 := by norm_num
  rw [h4] at h3
  rw [← h3]
  omega

/-- The high half of a 32-bit word, as the constructor computes it. -/
theorem high_half (w : Nat) (hw : w < 4294967296) : ToUInt16 (w >>> 16) = w / 65536 := by
  unfold ToUInt16
  rw [Nat.shiftRight_eq_div_pow]
  have h4 : (2 : Nat) ^ 16 = 65536 := by norm_num
  rw [h4]
  omega

/-- The low half of a 32-bit word, as the constructor computes it. -/
theorem low_half (w : Nat) : ToUInt16 (w &&& 0xFFFF) = w % 65536 := by
  unfold ToUInt16
  have h := Nat.and_pow_two_sub_one_eq_mod w 16
  have h4 : (2 : Nat) ^ 16 - 1 = 0xFFFF := by norm_num
  rw [h4] at h
  rw [h]
  omega

/-- C19: for all 16-bit Offset and BlockSize, constructing a property block
from the int32 returned by Pack() gives back the same Offset and the same
BlockSize (also when Offset >= 0x8000 makes the packed value negative). -/
theorem ofInt32_pack (Offset BlockSize : Nat) (hO : Offset < 65536) (hB : BlockSize < 65536) :
    FBehaviorTreePropertyMemory.ofInt32 (FBehaviorTreePropertyMemory.mk Offset BlockSize).Pack
      = FBehaviorTreePropertyMemory.mk Offset BlockSize ∧
    (32768 ≤ Offset → (FBehaviorTreePropertyMemory.mk Offset BlockSize).Pack < 0) := by
  have hword := pack_word Offset BlockSize hO hB
  have hlt : Offset * 65536 + BlockSize < 4294967296 := by omega
  constructor
  · unfold FBehaviorTreePropertyMemory.ofInt32 FBehaviorTreePropertyMemory.Pack
    simp only [hword]
    rw [toUInt32_toInt32 _ hlt, high_half _ hlt, low_half]
    congr 1
    · omega
    · omega
  · intro hneg
    unfold FBehaviorTreePropertyMemory.Pack
    simp only [hword]
    unfold ToInt32 WrapInt32
    omega

/-- Witness for C19: Offset 0x8000 and BlockSize 0x1234 pack to a negative
int32 and are recovered. -/
theorem ofInt32_pack_witness :
    FBehaviorTreePropertyMemory.ofInt32 (FBehaviorTreePropertyMemory.mk 32768 4660).Pack
      = FBehaviorTreePropertyMemory.mk 32768 4660 :=
  (ofInt32_pack 32768 4660 (by decide) (by decide)).1

/-- C20: for every int32 value V, FBehaviorTreePropertyMemory(V).Pack() = V,
where Offset is the high 16 bits and BlockSize the low 16 bits of V read as an
unsigned 32-bit word. -/
theorem pack_ofInt32 (V : Int) (hlo : -2147483648 ≤ V) (hhi : V < 2147483648) :
    (FBehaviorTreePropertyMemory.ofInt32 V).Pack = V ∧
    (FBehaviorTreePropertyMemory.ofInt32 V).Offset = ToUInt32 V / 65536 ∧
    (FBehaviorTreePropertyMemory.ofInt32 V).BlockSize = ToUInt32 V % 65536 := by
  have hw := toUInt32_lt V
  have hO : (FBehaviorTreePropertyMemory.ofInt32 V).Offset = ToUInt32 V / 65536 :=
    high_half _ hw
  have hB : (FBehaviorTreePropertyMemory.ofInt32 V).BlockSize = ToUInt32 V % 65536 :=
    low_half _
  refine ⟨?_, hO, hB⟩
  unfold FBehaviorTreePropertyMemory.Pack
  rw [hO, hB, pack_word _ _ (by omega) (Nat.mod_lt _ (by decide))]
  have hsum : ToUInt32 V / 65536 * 65536 + ToUInt32 V % 65536 = ToUInt32 V := by omega
  rw [hsum]
  exact toInt32_toUInt32 V hlo hhi

/-- Witness for C20: V = -1 unpacks to Offset 0xFFFF, BlockSize 0xFFFF and
packs back to -1. -/
theorem pack_ofInt32_witness :
    (FBehaviorTreePropertyMemory.ofInt32 (-1)).Pack = -1 :=
  (pack_ofInt32 (-1) (by decide) (by decide)).1

/-! ## Theorems: hashing node indices -/

/-- C21: GetTypeHash is consistent with operator== on FBTNodeIndex: indices
that compare equal have the same hash, the hash being ExecutionIndex XOR
InstanceIndex. -/
theorem getTypeHash_eq_of_eq (A B : FBTNodeIndex) (h : A.eq B = true) :
    GetTypeHash A = GetTypeHash B ∧
    GetTypeHash A = A.ExecutionIndex ^^^ A.InstanceIndex ∧
    GetTypeHash B = B.ExecutionIndex ^^^ B.InstanceIndex := by
  simp only [FBTNodeIndex.eq, Bool.and_eq_true, decide_eq_true_eq] at h
  refine ⟨?_, rfl, rfl⟩
  unfold GetTypeHash
  rw [h.1, h.2]

/-- Witness for C21: the index (3, 5) compared with itself; the hash is
5 XOR 3 = 6. -/
theorem getTypeHash_eq_of_eq_witness :
    (FBTNodeIndex.mk 3 5).eq (FBTNodeIndex.mk 3 5) = true ∧
      GetTypeHash (FBTNodeIndex.mk 3 5) = GetTypeHash (FBTNodeIndex.mk 3 5) ∧
      GetTypeHash (FBTNodeIndex.mk 3 5) = 6 :=
  ⟨by decide, (getTypeHash_eq_of_eq ⟨3, 5⟩ ⟨3, 5⟩ (by decide)).1, by decide⟩

/-! ## Theorems: target device proxy manager -/

/-- FindOrAdd does nothing to a map that has an entry for the key. -/
theorem tmapFindOrAdd_of_contains (Map : List (Nat × Option FTargetDeviceProxy)) (Key : Nat)
    (h : TMapContains Map Key = true) : TMapFindOrAdd Map Key = Map := by
  simp [TMapFindOrAdd, h]

/-- An entry holding the null pointer, added at the end, changes no lookup. -/
theorem tmapFindRef_append_null (Key n : Nat) :
    ∀ Map : List (Nat × Option FTargetDeviceProxy),
      TMapFindRef (Map ++ [(Key, none)]) n = TMapFindRef Map n := by
  intro Map
  induction Map with
  | nil => simp [TMapFindRef]
  | cons e rest ih =>
    obtain ⟨k, v⟩ := e
    by_cases hk : k = n
    · simp [TMapFindRef, hk]
    · simpa [TMapFindRef, hk] using ih

/-- FindOrAdd leaves every lookup as it was (a new entry holds the null
pointer, which is what FindRef reports for an absent key). -/
theorem tmapFindRef_findOrAdd (Key n : Nat) (Map : List (Nat × Option FTargetDeviceProxy)) :
    TMapFindRef (TMapFindOrAdd Map Key) n = TMapFindRef Map n := by
  unfold TMapFindOrAdd
  split
  · rfl
  · exact tmapFindRef_append_null Key n Map

/-- After FindOrAdd the key has an entry. -/
theorem tmapContains_findOrAdd (Key : Nat) :
    ∀ Map : List (Nat × Option FTargetDeviceProxy),
      TMapContains (TMapFindOrAdd Map Key) Key = true := by
  intro Map
  unfold TMapFindOrAdd
  by_cases h : TMapContains Map Key = true
  · simp [h]
  · simp only [h, Bool.false_eq_true, if_false]
    clear h
    induction Map with
    | nil => simp [TMapContains]
    | cons e rest ih =>
      obtain ⟨k, v⟩ := e
      by_cases hk : k = Key
      · simp [TMapContains, hk]
      · simpa [TMapContains, hk] using ih

/-- A key under which a valid pointer is found has an entry. -/
theorem tmapContains_of_findRef (Key : Nat) (p : FTargetDeviceProxy) :
    ∀ Map : List (Nat × Option FTargetDeviceProxy),
      TMapFindRef Map Key = some p → TMapContains Map Key = true := by
  intro Map
  induction Map with
  | nil => intro h; simp [TMapFindRef] at h
  | cons e rest ih =>
    obtain ⟨k, v⟩ := e
    intro h
    by_cases hk : k = Key
    · simp [TMapContains, hk]
    · simp only [TMapFindRef, hk, if_false] at h
      simpa [TMapContains, hk] using ih h

/-- Reading back the value assigned to an existing entry. -/
theorem tmapFindRef_assign_same (Key : Nat) (Value : Option FTargetDeviceProxy) :
    ∀ Map : List (Nat × Option FTargetDeviceProxy), TMapContains Map Key = true →
      TMapFindRef (TMapAssign Map Key Value) Key = Value := by
  intro Map
  induction Map with
  | nil => intro h; simp [TMapContains] at h
  | cons e rest ih =>
    obtain ⟨k, v⟩ := e
    intro h
    by_cases hk : k = Key
    · simp [TMapAssign, TMapFindRef, hk]
    · simp only [TMapContains, hk, if_false] at h
      simpa [TMapAssign, TMapFindRef, hk] using ih h

/-- Assigning the value of one key leaves the lookups of the other keys. -/
theorem tmapFindRef_assign_other (Key n : Nat) (Value : Option FTargetDeviceProxy) (hn : n ≠ Key) :
    ∀ Map : List (Nat × Option FTargetDeviceProxy),
      TMapFindRef (TMapAssign Map Key Value) n = TMapFindRef Map n := by
  intro Map
  induction Map with
  | nil => rfl
  | cons e rest ih =>
    obtain ⟨k, v⟩ := e
    by_cases hk : k = Key
    · have hkn : ¬ k = n := fun h => hn (h.symm.trans hk)
      simp [TMapAssign, TMapFindRef, hk, hkn, Ne.symm hn]
    · by_cases hkn : k = n
      · subst hkn
        simp [TMapAssign, TMapFindRef, hk]
      · simpa [TMapAssign, TMapFindRef, hk, hkn] using ih

/-- Replacing the null pointer of an entry by a valid pointer adds one proxy to
those held by the map. -/
theorem length_filterMap_assign (Key : Nat) (p : FTargetDeviceProxy) :
    ∀ Map : List (Nat × Option FTargetDeviceProxy), TMapContains Map Key = true →
      TMapFindRef Map Key = none →
      ((TMapAssign Map Key (some p)).filterMap (fun e => e.2)).length
        = (Map.filterMap (fun e => e.2)).length + 1 := by
  intro Map
  induction Map with
  | nil => intro h; simp [TMapContains] at h
  | cons e rest ih =>
    obtain ⟨k, v⟩ := e
    intro hc hf
    by_cases hk : k = Key
    · simp only [TMapFindRef, hk, if_true] at hf
      subst hf
      simp [TMapAssign, hk, List.filterMap_cons]
    · simp only [TMapContains, hk, if_false] at hc
      simp only [TMapFindRef, hk, if_false] at hf
      have := ih hc hf
      cases v with
      | none => simpa [TMapAssign, hk, List.filterMap_cons] using this
      | some q => simpa [TMapAssign, hk, List.filterMap_cons] using this

/-- FindOrAdd does not change the proxies held by the map. -/
theorem filterMap_findOrAdd (Key : Nat) (Map : List (Nat × Option FTargetDeviceProxy)) :
    (TMapFindOrAdd Map Key).filterMap (fun e => e.2) = Map.filterMap (fun e => e.2) := by
  unfold TMapFindOrAdd
  split
  · rfl
  · simp [List.filterMap_append]

/-- In a map of valid pointers, a key that has an entry is found. -/
theorem tmapFindRef_isSome_of_contains (Key : Nat) :
    ∀ Map : List (Nat × Option FTargetDeviceProxy), (∀ e ∈ Map, e.2 ≠ none) →
      TMapContains Map Key = true → TMapFindRef Map Key ≠ none := by
  intro Map
  induction Map with
  | nil => intro _ h; simp [TMapContains] at h
  | cons e rest ih =>
    obtain ⟨k, v⟩ := e
    intro hv hc
    by_cases hk : k = Key
    · simpa [TMapFindRef, hk] using hv (k, v) (List.mem_cons_self _ _)
    · simp only [TMapContains, hk, if_false] at hc
      simpa [TMapFindRef, hk] using ih (fun e he => hv e (List.mem_cons_of_mem _ he)) hc

/-- Filling the entry added for a new key keeps a map of valid pointers
valid. -/
theorem valid_assign_append (Key : Nat) (p : FTargetDeviceProxy) :
    ∀ Map : List (Nat × Option FTargetDeviceProxy), (∀ e ∈ Map, e.2 ≠ none) →
      TMapContains Map Key = false →
      ∀ e ∈ TMapAssign (Map ++ [(Key, none)]) Key (some p), e.2 ≠ none := by
  intro Map
  induction Map with
  | nil =>
    intro _ _ e he
    simp only [List.nil_append, TMapAssign, if_true, List.mem_singleton] at he
    rw [he]
    exact Option.some_ne_none _
  | cons x rest ih =>
    obtain ⟨k, v⟩ := x
    intro hv hc e he
    by_cases hk : k = Key
    · simp [TMapContains, hk] at hc
    · simp only [TMapContains, hk, if_false] at hc
      simp only [List.cons_append, TMapAssign, hk, if_false, List.mem_cons] at he
      rcases he with h | h
      · rw [h]
        exact hv (k, v) (List.mem_cons_self _ _)
      · exact ih (fun e he => hv e (List.mem_cons_of_mem _ he)) hc e h

/-- The map of a freshly constructed manager is empty, and FindOrAddProxy
keeps a map of valid pointers valid: the null pointer that FindOrAdd stores for
a new name is replaced before the function returns. -/
theorem findOrAddProxy_valid (MakeProxy : Nat → FTargetDeviceProxy)
    (self : FTargetDeviceProxyManager) (Name : Nat) (hValid : ∀ e ∈ self.Proxies, e.2 ≠ none) :
    ∀ e ∈ (FTargetDeviceProxyManager.FindOrAddProxy MakeProxy self Name).1.Proxies,
      e.2 ≠ none := by
  by_cases hc : TMapContains self.Proxies Name = true
  · have hmap := tmapFindOrAdd_of_contains self.Proxies Name hc
    have hsome := tmapFindRef_isSome_of_contains Name self.Proxies hValid hc
    cases hfound : TMapFindRef self.Proxies Name with
    | none => exact absurd hfound hsome
    | some q =>
      simpa [FTargetDeviceProxyManager.FindOrAddProxy, hmap, hfound] using hValid
  · have hc2 : TMapContains self.Proxies Name = false := by simpa using hc
    have hmap : TMapFindOrAdd self.Proxies Name = self.Proxies ++ [(Name, none)] := by
      simp [TMapFindOrAdd, hc2]
    have hnone : TMapFindRef (self.Proxies ++ [(Name, none)]) Name = none := by
      rw [tmapFindRef_append_null]
      cases hfound : TMapFindRef self.Proxies Name with
      | none => rfl
      | some q =>
        have := tmapContains_of_findRef Name q self.Proxies hfound
        rw [hc2] at this
        exact Bool.noConfusion this
    have := valid_assign_append Name (MakeProxy Name) self.Proxies hValid hc2
    simpa [FTargetDeviceProxyManager.FindOrAddProxy, hmap, hnone] using this

/-- FindOrAddProxy, case by case: the proxy returned is stored under the name
afterwards and the other names are left alone. If the name mapped to a valid
proxy, that proxy is returned and the manager is unchanged; otherwise the proxy
made for the name is returned, the map holds one proxy more and ProxyAdded is
broadcast once, with that proxy. A second call with the same name returns the
same proxy and changes nothing. -/
theorem findOrAddProxy_cases (MakeProxy : Nat → FTargetDeviceProxy)
    (self : FTargetDeviceProxyManager) (Name : Nat) :
    (FTargetDeviceProxyManager.FindOrAddProxy MakeProxy self Name).1.FindProxy Name
      = some (FTargetDeviceProxyManager.FindOrAddProxy MakeProxy self Name).2 ∧
    (∀ n : Nat, n ≠ Name →
      (FTargetDeviceProxyManager.FindOrAddProxy MakeProxy self Name).1.FindProxy n
        = self.FindProxy n) ∧
    (FTargetDeviceProxyManager.FindOrAddProxy MakeProxy self Name).1.ProxyRemovedBroadcasts
      = self.ProxyRemovedBroadcasts ∧
    (∀ p : FTargetDeviceProxy, self.FindProxy Name = some p →
      (FTargetDeviceProxyManager.FindOrAddProxy MakeProxy self Name).2 = p ∧
      (FTargetDeviceProxyManager.FindOrAddProxy MakeProxy self Name).1 = self) ∧
    (self.FindProxy Name = none →
      (FTargetDeviceProxyManager.FindOrAddProxy MakeProxy self Name).2 = MakeProxy Name ∧
      (FTargetDeviceProxyManager.FindOrAddProxy MakeProxy self Name).1.ProxyAddedBroadcasts
        = self.ProxyAddedBroadcasts ++ [MakeProxy Name] ∧
      (FTargetDeviceProxyManager.FindOrAddProxy MakeProxy self Name).1.ManagedProxies.length
        = self.ManagedProxies.length + 1) ∧
    FTargetDeviceProxyManager.FindOrAddProxy MakeProxy
        (FTargetDeviceProxyManager.FindOrAddProxy MakeProxy self Name).1 Name
      = ((FTargetDeviceProxyManager.FindOrAddProxy MakeProxy self Name).1,
         (FTargetDeviceProxyManager.FindOrAddProxy MakeProxy self Name).2) := by
  have hfo := tmapFindRef_findOrAdd Name Name self.Proxies
  have hco := tmapContains_findOrAdd Name self.Proxies
  cases hfound : TMapFindRef self.Proxies Name with
  | some p =>
    have hcont := tmapContains_of_findRef Name p self.Proxies hfound
    have hmap := tmapFindOrAdd_of_contains self.Proxies Name hcont
    have hr : FTargetDeviceProxyManager.FindOrAddProxy MakeProxy self Name = (self, p) := by
      simp [FTargetDeviceProxyManager.FindOrAddProxy, hmap, hfound]
    rw [hr]
    refine ⟨?_, ?_, rfl, ?_, ?_, ?_⟩
    · exact hfound
    · intro n _; rfl
    · intro q hq
      have hq2 : TMapFindRef self.Proxies Name = some q := hq
      rw [hfound] at hq2
      exact ⟨Option.some.inj hq2, rfl⟩
    · intro hnone
      have hn2 : TMapFindRef self.Proxies Name = none := hnone
      rw [hfound] at hn2
      exact Option.noConfusion hn2
    · exact hr
  | none =>
    rw [hfound] at hfo
    have hr : FTargetDeviceProxyManager.FindOrAddProxy MakeProxy self Name
        = ({ Proxies := TMapAssign (TMapFindOrAdd self.Proxies Name) Name (some (MakeProxy Name)),
             ProxyAddedBroadcasts := self.ProxyAddedBroadcasts ++ [MakeProxy Name],
             ProxyRemovedBroadcasts := self.ProxyRemovedBroadcasts },
           MakeProxy Name) := by
      simp [FTargetDeviceProxyManager.FindOrAddProxy, hfo]
    have hsame := tmapFindRef_assign_same Name (some (MakeProxy Name)) _ hco
    rw [hr]
    refine ⟨?_, ?_, rfl, ?_, ?_, ?_⟩
    · exact hsame
    · intro n hn
      show TMapFindRef (TMapAssign (TMapFindOrAdd self.Proxies Name) Name (some (MakeProxy Name))) n
        = TMapFindRef self.Proxies n
      rw [tmapFindRef_assign_other Name n _ hn, tmapFindRef_findOrAdd]
    · intro q hq
      have hq2 : TMapFindRef self.Proxies Name = some q := hq
      rw [hfound] at hq2
      exact Option.noConfusion hq2
    · intro _
      refine ⟨rfl, rfl, ?_⟩
      show ((TMapAssign (TMapFindOrAdd self.Proxies Name) Name (some (MakeProxy Name))).filterMap
        (fun e => e.2)).length = (self.Proxies.filterMap (fun e => e.2)).length + 1
      rw [length_filterMap_assign Name (MakeProxy Name) _ hco hfo, filterMap_findOrAdd]
    · have hcont2 := tmapContains_of_findRef Name (MakeProxy Name) _ hsame
      have hmap2 := tmapFindOrAdd_of_contains _ _ hcont2
      simp only [FTargetDeviceProxyManager.FindOrAddProxy, hmap2, hsame]

/-- C22 (amended): FindOrAddProxy returns a valid proxy that is stored under
the name afterwards. If the name already maps to a valid proxy it returns that
proxy, adds nothing and does not broadcast ProxyAdded; otherwise it stores
exactly one new proxy and broadcasts ProxyAdded exactly once. Two consecutive
calls with the same name return the same proxy, and together they broadcast
once if the name did not map to a valid proxy before the first call and not at
all if it did. -/
theorem findOrAddProxy_spec (MakeProxy : Nat → FTargetDeviceProxy)
    (self : FTargetDeviceProxyManager) (Name : Nat) :
    (FTargetDeviceProxyManager.FindOrAddProxy MakeProxy self Name).1.FindProxy Name
      = some (FTargetDeviceProxyManager.FindOrAddProxy MakeProxy self Name).2 ∧
    (∀ p : FTargetDeviceProxy, self.FindProxy Name = some p →
      (FTargetDeviceProxyManager.FindOrAddProxy MakeProxy self Name).2 = p ∧
      (FTargetDeviceProxyManager.FindOrAddProxy MakeProxy self Name).1 = self) ∧
    (self.FindProxy Name = none →
      (FTargetDeviceProxyManager.FindOrAddProxy MakeProxy self Name).2 = MakeProxy Name ∧
      (FTargetDeviceProxyManager.FindOrAddProxy MakeProxy self Name).1.ProxyAddedBroadcasts
        = self.ProxyAddedBroadcasts ++ [MakeProxy Name] ∧
      (FTargetDeviceProxyManager.FindOrAddProxy MakeProxy self Name).1.ManagedProxies.length
        = self.ManagedProxies.length + 1 ∧
      (∀ n : Nat, n ≠ Name →
        (FTargetDeviceProxyManager.FindOrAddProxy MakeProxy self Name).1.FindProxy n
          = self.FindProxy n)) ∧
    (FTargetDeviceProxyManager.FindOrAddProxy MakeProxy
        (FTargetDeviceProxyManager.FindOrAddProxy MakeProxy self Name).1 Name).2
      = (FTargetDeviceProxyManager.FindOrAddProxy MakeProxy self Name).2 ∧
    (∀ p : FTargetDeviceProxy, self.FindProxy Name = some p →
      (FTargetDeviceProxyManager.FindOrAddProxy MakeProxy
          (FTargetDeviceProxyManager.FindOrAddProxy MakeProxy self Name).1 Name).1.ProxyAddedBroadcasts
        = self.ProxyAddedBroadcasts) ∧
    (self.FindProxy Name = none →
      (FTargetDeviceProxyManager.FindOrAddProxy MakeProxy
          (FTargetDeviceProxyManager.FindOrAddProxy MakeProxy self Name).1 Name).1.ProxyAddedBroadcasts
        = self.ProxyAddedBroadcasts ++ [MakeProxy Name]) := by
  obtain ⟨h1, h2, _, h4, h5, h6⟩ := findOrAddProxy_cases MakeProxy self Name
  refine ⟨h1, h4, ?_, ?_, ?_, ?_⟩
  · intro hnone
    obtain ⟨a, b, c⟩ := h5 hnone
    exact ⟨a, b, c, h2⟩
  · rw [h6]
  · intro p hp
    rw [h6, (h4 p hp).2]
  · intro hnone
    rw [h6]
    exact (h5 hnone).2.1

/-- C22 (counterexample): when name 5 already maps to a valid proxy, two
consecutive calls of FindOrAddProxy with name 5 return that proxy and leave
the list of ProxyAdded broadcasts empty: they broadcast not once but not at
all. -/
theorem findOrAddProxy_known_name_no_broadcast :
    (FTargetDeviceProxyManager.FindOrAddProxy (fun n => ⟨n, false, 0, [], [], 0⟩)
        (FTargetDeviceProxyManager.FindOrAddProxy (fun n => ⟨n, false, 0, [], [], 0⟩)
          ⟨[(5, some ⟨5, true, 9, [], [], 0⟩)], [], []⟩ 5).1 5).1.ProxyAddedBroadcasts = [] ∧
    (FTargetDeviceProxyManager.FindOrAddProxy (fun n => ⟨n, false, 0, [], [], 0⟩)
        (FTargetDeviceProxyManager.FindOrAddProxy (fun n => ⟨n, false, 0, [], [], 0⟩)
          ⟨[(5, some ⟨5, true, 9, [], [], 0⟩)], [], []⟩ 5).1 5).1.ProxyAddedBroadcasts.length
      ≠ 1 := by
  constructor
  · rfl
  · decide

/-- The loop of GetProxies, when no entry holds a null pointer: the proxies
that pass the test are added to the array in iteration order. -/
theorem getProxiesLoop_eq (CurrentUser TargetPlatformName : Nat) (IncludeUnshared : Bool) :
    ∀ (entries : List (Nat × Option FTargetDeviceProxy)) (Out : List FTargetDeviceProxy),
      (∀ e ∈ entries, e.2 ≠ none) →
      FTargetDeviceProxyManager.GetProxiesLoop CurrentUser TargetPlatformName IncludeUnshared
          entries Out
        = some (Out ++ (entries.filterMap (fun e => e.2)).filter
            (FTargetDeviceProxyManager.IsListed CurrentUser TargetPlatformName IncludeUnshared)) := by
  intro entries
  induction entries with
  | nil => intro Out _; simp [FTargetDeviceProxyManager.GetProxiesLoop]
  | cons e rest ih =>
    intro Out hv
    obtain ⟨k, v⟩ := e
    have hrest : ∀ e ∈ rest, e.2 ≠ none := fun e he => hv e (List.mem_cons_of_mem _ he)
    cases v with
    | none => exact absurd rfl (hv (k, none) (List.mem_cons_self _ _))
    | some q =>
      by_cases hl : FTargetDeviceProxyManager.IsListed CurrentUser TargetPlatformName
          IncludeUnshared q = true
      · simp [FTargetDeviceProxyManager.GetProxiesLoop, hl, ih _ hrest, List.filterMap_cons,
          List.filter_cons]
      · simp [FTargetDeviceProxyManager.GetProxiesLoop, hl, ih _ hrest, List.filterMap_cons,
          List.filter_cons]

/-- C23: for a manager whose map holds valid pointers only, GetProxies returns
(whatever OutProxies held before) exactly the managed proxies, in map order,
for which (IncludeUnshared, or the proxy is shared, or its host user is the
current user) and (TargetPlatformName is NAME_None, or the proxy has that
target platform), each as often as the map holds it; the manager is
unchanged. -/
theorem getProxies_spec (self : FTargetDeviceProxyManager) (CurrentUser TargetPlatformName : Nat)
    (IncludeUnshared : Bool) (OutBefore : List FTargetDeviceProxy)
    (hValid : ∀ e ∈ self.Proxies, e.2 ≠ none) :
    ∃ Out : List FTargetDeviceProxy,
      self.GetProxies CurrentUser TargetPlatformName IncludeUnshared OutBefore = some (self, Out) ∧
      (∀ p : FTargetDeviceProxy, p ∈ Out ↔
        (p ∈ self.ManagedProxies ∧
          (IncludeUnshared = true ∨ p.bShared = true ∨ p.HostUser = CurrentUser) ∧
          (TargetPlatformName = NAME_None ∨ TargetPlatformName ∈ p.TargetPlatforms))) ∧
      (∀ p : FTargetDeviceProxy, p ∈ Out → Out.count p = self.ManagedProxies.count p) ∧
      Out.Sublist self.ManagedProxies := by
  refine ⟨self.ManagedProxies.filter
    (FTargetDeviceProxyManager.IsListed CurrentUser TargetPlatformName IncludeUnshared),
    ?_, ?_, ?_, ?_⟩
  · unfold FTargetDeviceProxyManager.GetProxies
    rw [getProxiesLoop_eq CurrentUser TargetPlatformName IncludeUnshared self.Proxies [] hValid]
    rfl
  · intro p
    rw [List.mem_filter]
    simp [FTargetDeviceProxyManager.IsListed, or_assoc]
  · intro p hp
    rw [List.count_filter (List.mem_filter.mp hp).2]
  · exact List.filter_sublist _

/-- Witness for C23: a manager with an unshared proxy of user 9 and a shared
proxy, listed for current user 1 without the unshared ones. -/
theorem getProxies_spec_witness :
    ∃ Out : List FTargetDeviceProxy,
      FTargetDeviceProxyManager.GetProxies
          ⟨[(1, some ⟨1, false, 9, [4], [], 0⟩), (2, some ⟨2, true, 9, [4], [], 0⟩)], [], []⟩
          1 NAME_None false [⟨3, true, 1, [], [], 0⟩]
        = some (⟨[(1, some ⟨1, false, 9, [4], [], 0⟩), (2, some ⟨2, true, 9, [4], [], 0⟩)], [], []⟩,
            Out) ∧
      Out.Sublist [⟨1, false, 9, [4], [], 0⟩, ⟨2, true, 9, [4], [], 0⟩] :=
  (getProxies_spec
    ⟨[(1, some ⟨1, false, 9, [4], [], 0⟩), (2, some ⟨2, true, 9, [4], [], 0⟩)], [], []⟩
    1 NAME_None false [⟨3, true, 1, [], [], 0⟩]
    (by
      intro e he
      simp only [List.mem_cons, List.mem_singleton, List.not_mem_nil, or_false] at he
      rcases he with h | h <;> rw [h] <;> exact Option.some_ne_none _)).imp
    (fun _ h => ⟨h.1, h.2.2.2⟩)

/-- The loop of RemoveDeadProxies, when no entry holds a null pointer: the
entries that are not dead stay, in order, and the dead proxies are broadcast
in iteration order. -/
theorem removeDeadProxiesLoop_eq (CurrentTime PingInterval : ℚ) :
    ∀ (entries : List (Nat × Option FTargetDeviceProxy)) (Removed : List FTargetDeviceProxy),
      (∀ e ∈ entries, e.2 ≠ none) →
      FTargetDeviceProxyManager.RemoveDeadProxiesLoop CurrentTime PingInterval entries Removed
        = some
            (entries.filter
              (fun e => !(FTargetDeviceProxyManager.EntryIsDead CurrentTime PingInterval e)),
             Removed ++ (entries.filterMap (fun e => e.2)).filter
               (FTargetDeviceProxyManager.IsDead CurrentTime PingInterval)) := by
  intro entries
  induction entries with
  | nil => intro Removed _; simp [FTargetDeviceProxyManager.RemoveDeadProxiesLoop]
  | cons e rest ih =>
    intro Removed hv
    obtain ⟨k, v⟩ := e
    have hrest : ∀ e ∈ rest, e.2 ≠ none := fun e he => hv e (List.mem_cons_of_mem _ he)
    cases v with
    | none => exact absurd rfl (hv (k, none) (List.mem_cons_self _ _))
    | some q =>
      by_cases hd : FTargetDeviceProxyManager.IsDead CurrentTime PingInterval q = true
      · simp [FTargetDeviceProxyManager.RemoveDeadProxiesLoop, hd, ih _ hrest,
          List.filterMap_cons, List.filter_cons, FTargetDeviceProxyManager.EntryIsDead]
      · simp [FTargetDeviceProxyManager.RemoveDeadProxiesLoop, hd, ih _ hrest,
          List.filterMap_cons, List.filter_cons, FTargetDeviceProxyManager.EntryIsDead]

/-- C24: for a manager whose map holds valid pointers only, RemoveDeadProxies
removes exactly the entries whose proxy has last update time + 3 * ping
interval strictly earlier than the current time, broadcasts ProxyRemoved once
for each removed proxy (in map order), keeps every other entry as it is and in
order (in particular a proxy exactly at the threshold), and broadcasts no
ProxyAdded. -/
theorem removeDeadProxies_spec (self : FTargetDeviceProxyManager) (CurrentTime PingInterval : ℚ)
    (hValid : ∀ e ∈ self.Proxies, e.2 ≠ none) :
    ∃ after : FTargetDeviceProxyManager,
      self.RemoveDeadProxies CurrentTime PingInterval = some after ∧
      (∀ (Key : Nat) (p : FTargetDeviceProxy),
        (Key, some p) ∈ after.Proxies ↔
          ((Key, some p) ∈ self.Proxies ∧ ¬ (p.LastUpdateTime + 3 * PingInterval < CurrentTime))) ∧
      after.Proxies.Sublist self.Proxies ∧
      (∀ e ∈ after.Proxies, after.Proxies.count e = self.Proxies.count e) ∧
      after.ProxyRemovedBroadcasts
        = self.ProxyRemovedBroadcasts ++
            self.ManagedProxies.filter
              (fun p => decide (p.LastUpdateTime + 3 * PingInterval < CurrentTime)) ∧
      after.ProxyAddedBroadcasts = self.ProxyAddedBroadcasts ∧
      (∀ (Key : Nat) (p : FTargetDeviceProxy), (Key, some p) ∈ self.Proxies →
        p.LastUpdateTime + 3 * PingInterval = CurrentTime → (Key, some p) ∈ after.Proxies) := by
  have hloop := removeDeadProxiesLoop_eq CurrentTime PingInterval self.Proxies
    self.ProxyRemovedBroadcasts hValid
  have hmem : ∀ (Key : Nat) (p : FTargetDeviceProxy),
      (Key, some p) ∈ self.Proxies.filter
          (fun e => !(FTargetDeviceProxyManager.EntryIsDead CurrentTime PingInterval e)) ↔
        ((Key, some p) ∈ self.Proxies ∧
          ¬ (p.LastUpdateTime + 3 * PingInterval < CurrentTime)) := by
    intro Key p
    rw [List.mem_filter]
    simp [FTargetDeviceProxyManager.EntryIsDead, FTargetDeviceProxyManager.IsDead]
  refine ⟨{ Proxies := self.Proxies.filter
              (fun e => !(FTargetDeviceProxyManager.EntryIsDead CurrentTime PingInterval e)),
            ProxyAddedBroadcasts := self.ProxyAddedBroadcasts,
            ProxyRemovedBroadcasts := self.ProxyRemovedBroadcasts ++
              (self.Proxies.filterMap (fun e => e.2)).filter
                (FTargetDeviceProxyManager.IsDead CurrentTime PingInterval) },
    ?_, hmem, List.filter_sublist _, ?_, rfl, rfl, ?_⟩
  · unfold FTargetDeviceProxyManager.RemoveDeadProxies
    rw [hloop]
    rfl
  · intro e he
    exact List.count_filter (List.mem_filter.mp he).2
  · intro Key p hp hthr
    exact (hmem Key p).mpr ⟨hp, by rw [hthr]; exact lt_irrefl _⟩

/-- Witness for C24: ping interval 2 and current time 10; the proxy last
updated at 3 is removed and broadcast, the proxy last updated at 4 (exactly
at the threshold) stays. -/
theorem removeDeadProxies_spec_witness :
    ∃ after : FTargetDeviceProxyManager,
      FTargetDeviceProxyManager.RemoveDeadProxies
          ⟨[(1, some ⟨1, true, 9, [], [], 3⟩), (2, some ⟨2, true, 9, [], [], 4⟩)], [], []⟩ 10 2
        = some after ∧
      after.ProxyAddedBroadcasts = [] :=
  (removeDeadProxies_spec
    ⟨[(1, some ⟨1, true, 9, [], [], 3⟩), (2, some ⟨2, true, 9, [], [], 4⟩)], [], []⟩ 10 2
    (by
      intro e he
      simp only [List.mem_cons, List.mem_singleton, List.not_mem_nil, or_false] at he
      rcases he with h | h <;> rw [h] <;> exact Option.some_ne_none _)).imp
    (fun _ h => ⟨h.1, h.2.2.2.2.2.1⟩)

/-! ## Theorems: custom pins of the ease function node -/

/-- The first element with a property is still the first one after a filter
that keeps it. -/
theorem find?_filter_of_keep {α : Type} (p P : α → Bool) (a : α) :
    ∀ l : List α, l.find? p = some a → P a = true → (l.filter P).find? p = some a := by
  intro l
  induction l with
  | nil => intro h; simp at h
  | cons x rest ih =>
    intro h hP
    rw [List.find?_cons] at h
    cases hpx : p x with
    | true =>
      rw [hpx] at h
      have hx : x = a := Option.some.inj h
      subst hx
      simp [List.filter_cons, hP, List.find?_cons, hpx]
    | false =>
      rw [hpx] at h
      have := ih h hP
      by_cases hPx : P x = true
      · simp [List.filter_cons, hPx, List.find?_cons, hpx, this]
      · simp [List.filter_cons, hPx, this]

/-- The loop of RemoveCustomPins, described by the set Removed of pin objects
it took off the node: the pins left are the pins not in Removed; a removed pin
bears the name of a visited record with the flag; the first pin named by a
visited record with the flag is in Removed; the records left are the records
without the flag, in order; and bResult is true exactly if it was true before
or a visited record with the flag names a pin of the node. -/
theorem removeCustomPinsLoop_spec (b : Bool) (Pins0 : List UEdGraphPin) (bResult0 : Bool) :
    ∀ entries : List FCustomPin,
      ∃ Removed : List UEdGraphPin,
        (UK2Node_EaseFunction.RemoveCustomPinsLoop b entries Pins0 bResult0).2.1
          = Pins0.filter (fun q => decide (q ∉ Removed)) ∧
        (∀ q ∈ Removed, ∃ e ∈ entries, e.bValuePin = b ∧ e.PinName = q.PinName) ∧
        (∀ e ∈ entries, e.bValuePin = b → ∀ pin : UEdGraphPin,
          UK2Node_EaseFunction.FindPin Pins0 e.PinName = some pin → pin ∈ Removed) ∧
        (UK2Node_EaseFunction.RemoveCustomPinsLoop b entries Pins0 bResult0).1
          = entries.filter (fun e => decide (e.bValuePin ≠ b)) ∧
        ((UK2Node_EaseFunction.RemoveCustomPinsLoop b entries Pins0 bResult0).2.2 = true ↔
          (bResult0 = true ∨ ∃ e ∈ entries, e.bValuePin = b ∧
            ∃ pin : UEdGraphPin, UK2Node_EaseFunction.FindPin Pins0 e.PinName = some pin)) := by
  intro entries
  induction entries with
  | nil =>
    refine ⟨[], ?_, ?_, ?_, ?_, ?_⟩
    · simp [UK2Node_EaseFunction.RemoveCustomPinsLoop]
    · intro q hq; simp at hq
    · intro e he; simp at he
    · simp [UK2Node_EaseFunction.RemoveCustomPinsLoop]
    · simp [UK2Node_EaseFunction.RemoveCustomPinsLoop]
  | cons Entry rest ih =>
    obtain ⟨R, hpins, hname, hfirst, hkept, hres⟩ := ih
    by_cases hflag : Entry.bValuePin = b
    · cases hfind : UK2Node_EaseFunction.FindPin
          (UK2Node_EaseFunction.RemoveCustomPinsLoop b rest Pins0 bResult0).2.1 Entry.PinName with
      | some pin1 =>
        have hpin1_mem : pin1 ∈ Pins0.filter (fun q => decide (q ∉ R)) := by
          rw [← hpins]
          exact List.mem_of_find?_eq_some hfind
        have hpin1_name : pin1.PinName = Entry.PinName := by
          have := List.find?_some hfind
          simpa using this
        have hpin1_0 : pin1 ∈ Pins0 := (List.mem_filter.mp hpin1_mem).1
        have hsome0 : ∃ pin, UK2Node_EaseFunction.FindPin Pins0 Entry.PinName = some pin := by
          have : (UK2Node_EaseFunction.FindPin Pins0 Entry.PinName).isSome = true := by
            unfold UK2Node_EaseFunction.FindPin
            rw [List.find?_isSome]
            exact ⟨pin1, hpin1_0, by simpa using hpin1_name⟩
          exact Option.isSome_iff_exists.mp this
        have hstep : UK2Node_EaseFunction.RemoveCustomPinsLoop b (Entry :: rest) Pins0 bResult0
            = ((UK2Node_EaseFunction.RemoveCustomPinsLoop b rest Pins0 bResult0).1,
               (UK2Node_EaseFunction.RemoveCustomPinsLoop b rest Pins0 bResult0).2.1.filter
                 (fun q => decide (q ≠ pin1)), true) := by
          simp only [UK2Node_EaseFunction.RemoveCustomPinsLoop, hflag, if_true, hfind]
        rw [hstep]
        refine ⟨pin1 :: R, ?_, ?_, ?_, ?_, ?_⟩
        · simp only [hpins, List.filter_filter]
          apply List.filter_congr
          intro q _
          by_cases hq1 : q = pin1
          · simp [hq1]
          · by_cases hqR : q ∈ R
            · simp [hq1, hqR]
            · simp [hq1, hqR]
        · intro q hq
          rcases List.mem_cons.mp hq with h | h
          · exact ⟨Entry, List.mem_cons_self _ _, hflag, by rw [h, hpin1_name]⟩
          · obtain ⟨e, he, hb, hn⟩ := hname q h
            exact ⟨e, List.mem_cons_of_mem _ he, hb, hn⟩
        · intro e he hb pin hpin
          rcases List.mem_cons.mp he with h | h
          · subst h
            by_cases hR : pin ∈ R
            · exact List.mem_cons_of_mem _ hR
            · have hkeep := find?_filter_of_keep
                (fun Pin : UEdGraphPin => decide (Pin.PinName = e.PinName))
                (fun q => decide (q ∉ R)) pin Pins0 hpin (by simpa using hR)
              have hfind2 : UK2Node_EaseFunction.FindPin
                  (Pins0.filter (fun q => decide (q ∉ R))) e.PinName = some pin1 := by
                rw [← hpins]; exact hfind
              have : some pin = some pin1 := hkeep.symm.trans hfind2
              rw [Option.some.inj this]
              exact List.mem_cons_self _ _
          · exact List.mem_cons_of_mem _ (hfirst e h hb pin hpin)
        · simp only [hkept]
          simp [List.filter_cons, hflag]
        · constructor
          · intro _
            exact Or.inr ⟨Entry, List.mem_cons_self _ _, hflag, hsome0⟩
          · intro _
            trivial
      | none =>
        have hnot : ∀ pin : UEdGraphPin,
            UK2Node_EaseFunction.FindPin Pins0 Entry.PinName = some pin → pin ∈ R := by
          intro pin hpin
          by_contra hR
          have hkeep := find?_filter_of_keep
            (fun Pin : UEdGraphPin => decide (Pin.PinName = Entry.PinName))
            (fun q => decide (q ∉ R)) pin Pins0 hpin (by simpa using hR)
          have hfind2 : UK2Node_EaseFunction.FindPin
              (Pins0.filter (fun q => decide (q ∉ R))) Entry.PinName = none := by
            rw [← hpins]; exact hfind
          have : some pin = none := hkeep.symm.trans hfind2
          exact Option.noConfusion this
        have hstep : UK2Node_EaseFunction.RemoveCustomPinsLoop b (Entry :: rest) Pins0 bResult0
            = ((UK2Node_EaseFunction.RemoveCustomPinsLoop b rest Pins0 bResult0).1,
               (UK2Node_EaseFunction.RemoveCustomPinsLoop b rest Pins0 bResult0).2.1,
               (UK2Node_EaseFunction.RemoveCustomPinsLoop b rest Pins0 bResult0).2.2) := by
          simp only [UK2Node_EaseFunction.RemoveCustomPinsLoop, hflag, if_true, hfind]
        rw [hstep]
        refine ⟨R, ?_, ?_, ?_, ?_, ?_⟩
        · exact hpins
        · intro q hq
          obtain ⟨e, he, hb, hn⟩ := hname q hq
          exact ⟨e, List.mem_cons_of_mem _ he, hb, hn⟩
        · intro e he hb pin hpin
          rcases List.mem_cons.mp he with h | h
          · subst h
            exact hnot pin hpin
          · exact hfirst e h hb pin hpin
        · simp only [hkept]
          simp [List.filter_cons, hflag]
        · simp only []
          rw [hres]
          constructor
          · rintro (h | ⟨e, he, hb, hp⟩)
            · exact Or.inl h
            · exact Or.inr ⟨e, List.mem_cons_of_mem _ he, hb, hp⟩
          · rintro (h | ⟨e, he, hb, pin, hp⟩)
            · exact Or.inl h
            · rcases List.mem_cons.mp he with h | h
              · subst h
                obtain ⟨e2, he2, hb2, hn2⟩ := hname pin (hnot pin hp)
                have hpn : pin.PinName = e.PinName := by
                  have := List.find?_some hp
                  simpa using this
                exact Or.inr ⟨e2, he2, hb2, pin, by rw [hn2, hpn]; exact hp⟩
              · exact Or.inr ⟨e, h, hb, pin, hp⟩
    · refine ⟨R, ?_, ?_, ?_, ?_, ?_⟩
      · simp only [UK2Node_EaseFunction.RemoveCustomPinsLoop, hflag, if_false, hpins]
      · intro q hq
        obtain ⟨e, he, hb, hn⟩ := hname q hq
        exact ⟨e, List.mem_cons_of_mem _ he, hb, hn⟩
      · intro e he hb pin hpin
        rcases List.mem_cons.mp he with h | h
        · subst h
          exact absurd hb hflag
        · exact hfirst e h hb pin hpin
      · simp only [UK2Node_EaseFunction.RemoveCustomPinsLoop, hflag, if_false, hkept]
        simp [List.filter_cons, hflag]
      · simp only [UK2Node_EaseFunction.RemoveCustomPinsLoop, hflag, if_false]
        rw [hres]
        constructor
        · rintro (h | ⟨e, he, hb, hp⟩)
          · exact Or.inl h
          · exact Or.inr ⟨e, List.mem_cons_of_mem _ he, hb, hp⟩
        · rintro (h | ⟨e, he, hb, hp⟩)
          · exact Or.inl h
          · rcases List.mem_cons.mp he with h | h
            · subst h
              exact absurd hb hflag
            · exact Or.inr ⟨e, h, hb, hp⟩

/-- The records left by RemoveCustomPins(b) are the records whose bValuePin
differs from b, in their order. -/
theorem removeCustomPins_records_eq (self : UK2Node_EaseFunction) (b : Bool) :
    (self.RemoveCustomPins b).1.CustomPinNames
      = self.CustomPinNames.filter (fun e => decide (e.bValuePin ≠ b)) := by
  obtain ⟨_, _, _, _, hkept, _⟩ := removeCustomPinsLoop_spec b self.Pins false self.CustomPinNames
  exact hkept

/-- C26: RemoveCustomPins(b) leaves no record whose bValuePin equals b and
keeps the records whose bValuePin differs from b, in their order; it returns
true exactly if a removed record names a pin that the node had; the first pin
named by a removed record is no longer on the node, the pins whose name no
removed record bears all stay, and no pin is added. -/
theorem removeCustomPins_spec (self : UK2Node_EaseFunction) (b : Bool) :
    (∀ e ∈ (self.RemoveCustomPins b).1.CustomPinNames, e.bValuePin ≠ b) ∧
    (self.RemoveCustomPins b).1.CustomPinNames
      = self.CustomPinNames.filter (fun e => decide (e.bValuePin ≠ b)) ∧
    ((self.RemoveCustomPins b).2 = true ↔
      ∃ e ∈ self.CustomPinNames, e.bValuePin = b ∧
        ∃ pin ∈ self.Pins, pin.PinName = e.PinName) ∧
    (∀ e ∈ self.CustomPinNames, e.bValuePin = b → ∀ pin : UEdGraphPin,
      UK2Node_EaseFunction.FindPin self.Pins e.PinName = some pin →
        pin ∉ (self.RemoveCustomPins b).1.Pins) ∧
    (∀ q ∈ self.Pins, (∀ e ∈ self.CustomPinNames, e.bValuePin = b → e.PinName ≠ q.PinName) →
      q ∈ (self.RemoveCustomPins b).1.Pins) ∧
    (self.RemoveCustomPins b).1.Pins.Sublist self.Pins ∧
    (self.RemoveCustomPins b).1.OldEasingFunc = self.OldEasingFunc := by
  obtain ⟨R, hpins, hname, hfirst, hkept, hres⟩ :=
    removeCustomPinsLoop_spec b self.Pins false self.CustomPinNames
  have hP : (self.RemoveCustomPins b).1.Pins
      = self.Pins.filter (fun q => decide (q ∉ R)) := hpins
  have hC : (self.RemoveCustomPins b).1.CustomPinNames
      = self.CustomPinNames.filter (fun e => decide (e.bValuePin ≠ b)) := hkept
  have hfindIff : ∀ name : Nat,
      (∃ pin : UEdGraphPin, UK2Node_EaseFunction.FindPin self.Pins name = some pin) ↔
        ∃ pin ∈ self.Pins, pin.PinName = name := by
    intro name
    rw [← Option.isSome_iff_exists]
    unfold UK2Node_EaseFunction.FindPin
    rw [List.find?_isSome]
    simp
  refine ⟨?_, hC, ?_, ?_, ?_, ?_, rfl⟩
  · intro e he
    rw [hC] at he
    simpa using (List.mem_filter.mp he).2
  · show (UK2Node_EaseFunction.RemoveCustomPinsLoop b self.CustomPinNames self.Pins false).2.2
      = true ↔ _
    rw [hres]
    constructor
    · rintro (h | ⟨e, he, hb, hp⟩)
      · exact Bool.noConfusion h
      · exact ⟨e, he, hb, (hfindIff e.PinName).mp hp⟩
    · rintro ⟨e, he, hb, hp⟩
      exact Or.inr ⟨e, he, hb, (hfindIff e.PinName).mpr hp⟩
  · intro e he hb pin hpin hmem
    rw [hP] at hmem
    have := (List.mem_filter.mp hmem).2
    simp only [decide_eq_true_eq] at this
    exact this (hfirst e he hb pin hpin)
  · intro q hq hno
    rw [hP]
    refine List.mem_filter.mpr ⟨hq, ?_⟩
    simp only [decide_eq_true_eq]
    intro hqR
    obtain ⟨e, he, hb, hn⟩ := hname q hqR
    exact hno e he hb hn
  · rw [hP]
    exact List.filter_sublist _

/-- RemoveCustomPins(false) leaves no record that is not a value pin. -/
theorem nonValueRecords_removeCustomPins (self : UK2Node_EaseFunction) :
    (self.RemoveCustomPins false).1.CustomPinNames.filter (fun Entry => !Entry.bValuePin) = [] := by
  rw [(removeCustomPins_records_eq self false)]
  rw [List.filter_filter, List.filter_eq_nil_iff]
  intro e _
  cases e.bValuePin <;> simp

/-- One call of GenerateCustomPins keeps the non-value records in step with
OldEasingFunc: if they were the records for the old function, they are the
records for the new one afterwards, and OldEasingFunc is the new function. -/
theorem generateCustomPins_step (E : EEasingFunc) (NewPinId : Nat) (self : UK2Node_EaseFunction)
    (NewEasingFunc : Int)
    (hInv : self.NonValueRecords = UK2Node_EaseFunction.RecordsFor E self.OldEasingFunc) :
    (UK2Node_EaseFunction.GenerateCustomPins E NewPinId self NewEasingFunc).1.NonValueRecords
      = UK2Node_EaseFunction.RecordsFor E NewEasingFunc ∧
    (UK2Node_EaseFunction.GenerateCustomPins E NewPinId self NewEasingFunc).1.OldEasingFunc
      = NewEasingFunc := by
  have hrem := nonValueRecords_removeCustomPins self
  unfold UK2Node_EaseFunction.GenerateCustomPins
  by_cases hexit : (decide (self.OldEasingFunc = NewEasingFunc) ||
      (E.IsEase self.OldEasingFunc && E.IsEase NewEasingFunc)) = true
  · rw [if_pos hexit]
    refine ⟨?_, rfl⟩
    show self.NonValueRecords = _
    rw [hInv]
    simp only [Bool.or_eq_true, decide_eq_true_eq, Bool.and_eq_true] at hexit
    rcases hexit with h | ⟨h1, h2⟩
    · rw [h]
    · simp [UK2Node_EaseFunction.RecordsFor, h1, h2]
  · rw [if_neg hexit]
    dsimp only
    by_cases hease : E.IsEase NewEasingFunc = true
    · rw [if_pos hease]
      refine ⟨?_, rfl⟩
      show ((self.RemoveCustomPins false).1.CustomPinNames ++
          [UK2Node_EaseFunction.BlendExpRecord]).filter (fun Entry => !Entry.bValuePin) = _
      rw [List.filter_append, hrem]
      simp [UK2Node_EaseFunction.RecordsFor, hease, UK2Node_EaseFunction.BlendExpRecord]
    · rw [if_neg hease]
      by_cases hstep : NewEasingFunc = E.Step
      · rw [if_pos hstep]
        refine ⟨?_, rfl⟩
        show ((self.RemoveCustomPins false).1.CustomPinNames ++
            [UK2Node_EaseFunction.StepsRecord]).filter (fun Entry => !Entry.bValuePin) = _
        rw [List.filter_append, hrem]
        have hease2 : E.IsEase NewEasingFunc = false := by simpa using hease
        rw [hstep] at hease2
        simp only [UK2Node_EaseFunction.RecordsFor, hstep, hease2, Bool.false_eq_true, if_false,
          if_true]
        rfl
      · rw [if_neg hstep]
        refine ⟨?_, rfl⟩
        show (self.RemoveCustomPins false).1.CustomPinNames.filter
          (fun Entry => !Entry.bValuePin) = _
        rw [hrem]
        simp [UK2Node_EaseFunction.RecordsFor, hease, hstep]

/-- A sequence of calls followed by one more call. -/
theorem generateCustomPinsSeq_append (E : EEasingFunc) (last : Int × Nat) :
    ∀ (reqs : List (Int × Nat)) (self : UK2Node_EaseFunction),
      UK2Node_EaseFunction.GenerateCustomPinsSeq E (reqs ++ [last]) self
        = (UK2Node_EaseFunction.GenerateCustomPins E last.2
            (UK2Node_EaseFunction.GenerateCustomPinsSeq E reqs self) last.1).1 := by
  intro reqs
  induction reqs with
  | nil => intro self; rfl
  | cons r rest ih =>
    intro self
    simp only [List.cons_append, UK2Node_EaseFunction.GenerateCustomPinsSeq]
    exact ih _

/-- Any sequence of calls keeps the non-value records in step with
OldEasingFunc. -/
theorem generateCustomPinsSeq_inv (E : EEasingFunc) :
    ∀ (reqs : List (Int × Nat)) (self : UK2Node_EaseFunction),
      self.NonValueRecords = UK2Node_EaseFunction.RecordsFor E self.OldEasingFunc →
      (UK2Node_EaseFunction.GenerateCustomPinsSeq E reqs self).NonValueRecords
        = UK2Node_EaseFunction.RecordsFor E
            (UK2Node_EaseFunction.GenerateCustomPinsSeq E reqs self).OldEasingFunc := by
  intro reqs
  induction reqs with
  | nil => intro self h; exact h
  | cons r rest ih =>
    intro self h
    simp only [UK2Node_EaseFunction.GenerateCustomPinsSeq]
    apply ih
    obtain ⟨h1, h2⟩ := generateCustomPins_step E r.2 self r.1 h
    rw [h1, h2]

/-- C25: starting from an ease node with OldEasingFunc = INDEX_NONE and no
non-value custom pin record, after any sequence of GenerateCustomPins calls the
non-value records of CustomPinNames are: the one BlendExp record if the last
requested function is EaseIn, EaseOut or EaseInOut; the one Steps record if it
is Step; none otherwise; and OldEasingFunc is the last requested function. A
call that asks for the function already set, or for one of EaseIn / EaseOut /
EaseInOut when one of them is set, returns false. -/
theorem generateCustomPins_records (E : EEasingFunc) (hE : E.WellFormed)
    (node : UK2Node_EaseFunction) (hOld : node.OldEasingFunc = INDEX_NONE)
    (hNone : node.NonValueRecords = []) (reqs : List (Int × Nat)) (last : Int × Nat) :
    ((last.1 = E.EaseIn ∨ last.1 = E.EaseOut ∨ last.1 = E.EaseInOut) →
      (UK2Node_EaseFunction.GenerateCustomPinsSeq E (reqs ++ [last]) node).NonValueRecords
        = [UK2Node_EaseFunction.BlendExpRecord]) ∧
    (last.1 = E.Step →
      (UK2Node_EaseFunction.GenerateCustomPinsSeq E (reqs ++ [last]) node).NonValueRecords
        = [UK2Node_EaseFunction.StepsRecord]) ∧
    (¬ (last.1 = E.EaseIn ∨ last.1 = E.EaseOut ∨ last.1 = E.EaseInOut) → last.1 ≠ E.Step →
      (UK2Node_EaseFunction.GenerateCustomPinsSeq E (reqs ++ [last]) node).NonValueRecords
        = []) ∧
    (UK2Node_EaseFunction.GenerateCustomPinsSeq E (reqs ++ [last]) node).OldEasingFunc
      = last.1 ∧
    (∀ (n : UK2Node_EaseFunction) (NewPinId : Nat) (New : Int),
      (n.OldEasingFunc = New ∨
        ((n.OldEasingFunc = E.EaseIn ∨ n.OldEasingFunc = E.EaseOut ∨
            n.OldEasingFunc = E.EaseInOut) ∧
          (New = E.EaseIn ∨ New = E.EaseOut ∨ New = E.EaseInOut))) →
      (UK2Node_EaseFunction.GenerateCustomPins E NewPinId n New).2 = false) := by
  obtain ⟨hS, hI, hO, hIO, hSI, hSO, hSIO, _, _, _⟩ := hE
  have hIsEase : ∀ f : Int, E.IsEase f = true ↔
      (f = E.EaseIn ∨ f = E.EaseOut ∨ f = E.EaseInOut) := by
    intro f
    simp [EEasingFunc.IsEase, or_assoc]
  have hinit : node.NonValueRecords
      = UK2Node_EaseFunction.RecordsFor E node.OldEasingFunc := by
    rw [hNone, hOld]
    have h1 : E.IsEase INDEX_NONE = false := by
      rw [← Bool.not_eq_true, hIsEase]
      unfold INDEX_NONE
      omega
    have h2 : ¬ INDEX_NONE = E.Step := by
      unfold INDEX_NONE
      omega
    simp [UK2Node_EaseFunction.RecordsFor, h1, h2]
  have hinv := generateCustomPinsSeq_inv E reqs node hinit
  obtain ⟨hrec, hold⟩ := generateCustomPins_step E last.2
    (UK2Node_EaseFunction.GenerateCustomPinsSeq E reqs node) last.1 hinv
  rw [generateCustomPinsSeq_append]
  refine ⟨?_, ?_, ?_, hold, ?_⟩
  · intro h
    rw [hrec]
    simp [UK2Node_EaseFunction.RecordsFor, (hIsEase last.1).mpr h]
  · intro h
    rw [hrec]
    have hne : E.IsEase last.1 = false := by
      rw [← Bool.not_eq_true, hIsEase, h]
      rintro (h1 | h1 | h1)
      · exact hSI h1
      · exact hSO h1
      · exact hSIO h1
    rw [h] at hne
    simp only [UK2Node_EaseFunction.RecordsFor, h, hne, Bool.false_eq_true, if_false, if_true]
  · intro h hns
    rw [hrec]
    have hne : E.IsEase last.1 = false := by
      rw [← Bool.not_eq_true, hIsEase]
      exact h
    simp [UK2Node_EaseFunction.RecordsFor, hne, hns]
  · intro n NewPinId New h
    have hexit : (decide (n.OldEasingFunc = New) ||
        (E.IsEase n.OldEasingFunc && E.IsEase New)) = true := by
      rcases h with h | ⟨h1, h2⟩
      · simp [h]
      · simp [(hIsEase _).mpr h1, (hIsEase _).mpr h2]
    unfold UK2Node_EaseFunction.GenerateCustomPins
    rw [if_pos hexit]

/-- Witness for C25: Step = 1, EaseIn = 5, EaseOut = 6, EaseInOut = 7; the
freshly constructed node asked for EaseIn, then EaseOut, then Step ends with
OldEasingFunc = 1 (Step). -/
theorem generateCustomPins_records_witness :
    (UK2Node_EaseFunction.GenerateCustomPinsSeq ⟨1, 5, 6, 7⟩ ([(5, 100), (6, 101)] ++ [(1, 102)])
        UK2Node_EaseFunction.ctor).NonValueRecords = [UK2Node_EaseFunction.StepsRecord] ∧
    (UK2Node_EaseFunction.GenerateCustomPinsSeq ⟨1, 5, 6, 7⟩ ([(5, 100), (6, 101)] ++ [(1, 102)])
        UK2Node_EaseFunction.ctor).OldEasingFunc = 1 :=
  ⟨(generateCustomPins_records ⟨1, 5, 6, 7⟩ (by unfold EEasingFunc.WellFormed; decide)
      UK2Node_EaseFunction.ctor rfl rfl [(5, 100), (6, 101)] (1, 102)).2.1 rfl,
   (generateCustomPins_records ⟨1, 5, 6, 7⟩ (by unfold EEasingFunc.WellFormed; decide)
      UK2Node_EaseFunction.ctor rfl rfl [(5, 100), (6, 101)] (1, 102)).2.2.2.1⟩

end BehaviorTree
